import Mathlib

/-!
# MobileLua `SystemAPI.cpp`: raw buffers, string conversion, event decoding, bit operations

A shallow embedding of the C functions of `projects/LuaLib/src/SystemAPI.cpp`.

* Memory is a list of blocks (one per allocation), each block a list of bytes.
  A non-null pointer is a block number and a byte offset into the block; the
  null pointer is `none`.  An access outside the block of its pointer is
  undefined behaviour in C and gives `none` here.
* `int` is the 32-bit two's complement integer of the platform, carried as an
  `Int` and wrapped with `toU32` and `toI32` where the source converts.
* The byte order of multi-byte values, the size of `wchar` and the signedness
  of plain `char` are properties of the platform and are parameters
  (`Platform`).  A wide unit is carried as its bit pattern, a number below
  `256 ^ wcharSize`.
* Offsets are unbounded integers: an access is defined only inside its block,
  and the blocks of the 32-bit platform are smaller than `2^31` bytes, so the
  index arithmetic of an in-range access does not overflow.  Where the source
  keeps a string length in an `int` the wrap is modelled and the theorems say
  for which lengths they hold.
* The outcome of `malloc` is chosen by the C runtime and is an argument of the
  functions that allocate.
* A `float` or `double` read from memory is carried as its bit pattern; no
  floating-point arithmetic is modelled.
* The record types `MAEvent`, `MAPoint2d` and `MARect` are declared outside the
  source file; the byte offsets of their fields are parameters.
* A shift by a count outside `0..31` is undefined behaviour and gives `none`.
-/

namespace MobileLua

/-! ## Machine integers -/

/-- The value of a C `int` converted to `unsigned int` (32 bits). -/
def toU32 (a : Int) : Nat := (a % 4294967296).toNat

/-- The value of an `unsigned int` bit pattern converted to `int`
(two's complement wrap). -/
def toI32 (u : Nat) : Int :=
  if u % 4294967296 < 2147483648 then ((u % 4294967296 : Nat) : Int)
  else ((u % 4294967296 : Nat) : Int) - 4294967296

/-- The values a 32-bit `int` can hold. -/
def IsInt32 (a : Int) : Prop := -2147483648 ≤ a ∧ a < 2147483648

instance (a : Int) : Decidable (IsInt32 a) := by
  unfold IsInt32; infer_instance

/-! ## Bytes, blocks and the heap -/

/-- One byte of memory, the C type `byte` (`unsigned char`). -/
abbrev Byte := Fin 256

/-- Conversion of a number to `byte`: the low 8 bits. -/
def toByte (n : Nat) : Byte := ⟨n % 256, Nat.mod_lt n (by decide)⟩

/-- Conversion of an `int` to `byte`: the low 8 bits of its bit pattern. -/
def intToByte (v : Int) : Byte := toByte (toU32 v)

/-- The memory: block `b` is the `b`-th allocation, a list of bytes. -/
abbrev Heap := List (List Byte)

/-- A non-null pointer: a block and a byte offset from the start of the block. -/
structure Ptr where
  block : Nat
  off : Int
deriving DecidableEq, Repr

/-- The byte at offset `a` of block `b`; `none` outside the block. -/
def peek (h : Heap) (b : Nat) (a : Int) : Option Byte :=
  if 0 ≤ a then
    match h[b]? with
    | some blk => blk[a.toNat]?
    | none => none
  else none

/-- Store byte `v` at offset `a` of block `b`; `none` outside the block. -/
def poke (h : Heap) (b : Nat) (a : Int) (v : Byte) : Option Heap :=
  if 0 ≤ a then
    match h[b]? with
    | some blk =>
      if a.toNat < blk.length then some (h.set b (blk.set a.toNat v)) else none
    | none => none
  else none

/-- The size in bytes of block `b`. -/
def blockSize (h : Heap) (b : Nat) : Option Nat := (h[b]?).map List.length

/-- The `n` bytes from offset `a` of block `b` are inside the block. -/
def InRange (h : Heap) (b : Nat) (a : Int) (n : Nat) : Prop :=
  ∃ sz, blockSize h b = some sz ∧ 0 ≤ a ∧ a + n ≤ sz

instance (h : Heap) (b : Nat) (a : Int) (n : Nat) : Decidable (InRange h b a n) :=
  match hb : blockSize h b with
  | some sz =>
    if hc : 0 ≤ a ∧ a + (n : Int) ≤ (sz : Int) then isTrue ⟨sz, hb, hc.1, hc.2⟩
    else isFalse (fun hr => by
      obtain ⟨sz1, hb1, h1, h2⟩ := hr
      rw [hb] at hb1
      cases hb1
      exact hc ⟨h1, h2⟩)
  | none => isFalse (fun hr => by
      obtain ⟨sz1, hb1, -, -⟩ := hr
      rw [hb] at hb1
      cases hb1)

/-- Read `n` consecutive bytes starting at offset `a` of block `b`. -/
def loadBytes (h : Heap) (b : Nat) (a : Int) : Nat → Option (List Byte)
  | 0 => some []
  | n + 1 =>
    match peek h b a with
    | some x =>
      match loadBytes h b (a + 1) n with
      | some xs => some (x :: xs)
      | none => none
    | none => none

/-- Write the bytes `bs` to consecutive offsets starting at `a` of block `b`. -/
def storeBytes (h : Heap) (b : Nat) (a : Int) : List Byte → Option Heap
  | [] => some h
  | x :: xs =>
    match poke h b a x with
    | some h1 => storeBytes h1 b (a + 1) xs
    | none => none

/-! ## Native representation of multi-byte values -/

/-- The byte order of the platform. -/
inductive ByteOrder where
  | little
  | big
deriving DecidableEq, Repr

/-- The `n` low bytes of `v`, least significant first. -/
def encodeLE : Nat → Nat → List Byte
  | 0, _ => []
  | n + 1, v => toByte v :: encodeLE n (v / 256)

/-- The number whose bytes, least significant first, are `bs`. -/
def decodeLE : List Byte → Nat
  | [] => 0
  | x :: xs => x.val + 256 * decodeLE xs

/-- The `n`-byte native representation of `v`. -/
def encode (o : ByteOrder) (n v : Nat) : List Byte :=
  match o with
  | .little => encodeLE n v
  | .big => (encodeLE n v).reverse

/-- The number a native representation stands for. -/
def decode (o : ByteOrder) (bs : List Byte) : Nat :=
  match o with
  | .little => decodeLE bs
  | .big => decodeLE bs.reverse

/-- The properties of the target platform that the source leaves to the
compiler: the byte order, the size in bytes of `wchar`, and whether plain `char`
is a signed type. -/
structure Platform where
  order : ByteOrder
  wcharSize : Nat
  charSigned : Bool
deriving DecidableEq, Repr

/-- Modelled from the spec: the value of `sizeof(int)` is left to the compiler;
the standard fixed width on the supported (32-bit) targets is 4. -/
def sizeofInt : Nat := 4

/-! ## Functions for using C memory from Lua -/

/-- Source `SysBufferGetInt`: `int* p = (int*) buffer; return p[index];` -/
def SysBufferGetInt (P : Platform) (h : Heap) (buffer : Ptr) (index : Int) : Option Int :=
  match loadBytes h buffer.block (buffer.off + sizeofInt * index) sizeofInt with
  | some bs => some (toI32 (decode P.order bs))
  | none => none

/-- Source `SysBufferSetInt`: `int* p = (int*) buffer; p[index] = value;` -/
def SysBufferSetInt (P : Platform) (h : Heap) (buffer : Ptr) (index value : Int) :
    Option Heap :=
  storeBytes h buffer.block (buffer.off + sizeofInt * index)
    (encode P.order sizeofInt (toU32 value))

/-- Source `SysBufferGetByte`: `byte* p = (byte*) buffer; return (int) (p[index]);` -/
def SysBufferGetByte (h : Heap) (buffer : Ptr) (index : Int) : Option Int :=
  match peek h buffer.block (buffer.off + index) with
  | some x => some (x.val : Int)
  | none => none

/-- Source `SysBufferSetByte`: `byte* p = (byte*) buffer; p[index] = (byte) value;` -/
def SysBufferSetByte (h : Heap) (buffer : Ptr) (index value : Int) : Option Heap :=
  poke h buffer.block (buffer.off + index) (intToByte value)

/-- The C loop `for (i = i0; i < i0 + k; ++i) body`, with `k` iterations left
and loop variable `i`; `body i` is one run of the loop body.  Returns the final
value of `i` and the memory. -/
def forLoop (body : Int → Heap → Option Heap) : Nat → Int → Heap → Option (Int × Heap)
  | 0, i, h => some (i, h)
  | k + 1, i, h =>
    match body i h with
    | some h1 => forLoop body k (i + 1) h1
    | none => none

/-- The loop body of `SysBufferCopyBytes`:
`dest[destIndex + i] = source[sourceIndex + i];` -/
def copyBody (source : Ptr) (sourceIndex : Int) (dest : Ptr) (destIndex : Int)
    (i : Int) (h : Heap) : Option Heap :=
  match peek h source.block (source.off + (sourceIndex + i)) with
  | some x => poke h dest.block (dest.off + (destIndex + i)) x
  | none => none

/-- Source `SysBufferCopyBytes`:
`for (int i = 0; i < numberOfBytesToCopy; ++i) dest[destIndex + i] = source[sourceIndex + i];`
The loop runs `numberOfBytesToCopy` times, and not at all when that is `≤ 0`. -/
def SysBufferCopyBytes (h : Heap) (sourceBuffer : Ptr) (sourceIndex : Int)
    (destBuffer : Ptr) (destIndex : Int) (numberOfBytesToCopy : Int) : Option Heap :=
  match forLoop (copyBody sourceBuffer sourceIndex destBuffer destIndex)
      numberOfBytesToCopy.toNat 0 h with
  | some (_, h1) => some h1
  | none => none

/-- A copy with the meaning of `memmove`: the destination receives the bytes the
source range held before the call, whether or not the ranges overlap. -/
def memmoveBytes (h : Heap) (sourceBuffer : Ptr) (sourceIndex : Int)
    (destBuffer : Ptr) (destIndex : Int) (numberOfBytesToCopy : Int) : Option Heap :=
  match loadBytes h sourceBuffer.block (sourceBuffer.off + sourceIndex)
      numberOfBytesToCopy.toNat with
  | some bs => storeBytes h destBuffer.block (destBuffer.off + destIndex) bs
  | none => none

/-- Source `SysBufferGetBytePointer`: `return ((char*) buffer) + index;` -/
def SysBufferGetBytePointer (buffer : Ptr) (index : Int) : Ptr :=
  { block := buffer.block, off := buffer.off + index }

/-! ## Functions for bit operations -/

/-- Source `SysBitAnd`: `return ((unsigned int) a) & ((unsigned int) a);` -/
def SysBitAnd (a _b : Int) : Int := toI32 (toU32 a &&& toU32 a)

/-- Source `SysBitOr`: `return ((unsigned int) a) | ((unsigned int) a);` -/
def SysBitOr (a _b : Int) : Int := toI32 (toU32 a ||| toU32 a)

/-- Source `SysBitXor`: `return ((unsigned int) a) ^ ((unsigned int) a);` -/
def SysBitXor (a _b : Int) : Int := toI32 (toU32 a ^^^ toU32 a)

/-! ## Allocation -/

/-- Modelled from the spec: `malloc` of the C library is not in the source
file.  `allocate(sizeBytes) -> handle | OutOfMemory`: the outcome is chosen by the
runtime and is an argument here, `none` for the failure (null pointer) and
`some f` for a fresh block of `size` bytes with the indeterminate content `f`. -/
def malloc (h : Heap) (size : Nat) (fresh : Option (Nat → Byte)) : Option Ptr × Heap :=
  match fresh with
  | none => (none, h)
  | some f => (some { block := h.length, off := 0 }, h ++ [(List.range size).map f])

/-- Source `SysAlloc`: `return malloc(size);` where the `int` argument is
converted to the unsigned 32-bit `size_t`. -/
def SysAlloc (h : Heap) (size : Int) (fresh : Option (Nat → Byte)) : Option Ptr × Heap :=
  malloc h (toU32 size) fresh

/-! ## String functions -/

/-- Scan for the first zero element: `read i` is element `i`, `none` when it is
outside the block.  With `fuel` iterations left and position `i`. -/
def scanZero (read : Nat → Option Nat) : Nat → Nat → Option Nat
  | 0, _ => none
  | fuel + 1, i =>
    match read i with
    | none => none
    | some u => if u = 0 then some i else scanZero read fuel (i + 1)

/-- The byte `i` of the narrow string at `s` read as `unsigned char`, the way
the C library scans a string for its zero terminator. -/
def readByte (h : Heap) (s : Ptr) (i : Int) : Option Nat :=
  match peek h s.block (s.off + i) with
  | some x => some x.val
  | none => none

/-- The value of a plain `char` whose byte is `x`: `x` itself where `char` is
unsigned, and `x - 256` for `x ≥ 128` where `char` is signed (two's complement). -/
def charValue (P : Platform) (x : Byte) : Int :=
  if P.charSigned = true ∧ 128 ≤ x.val then (x.val : Int) - 256 else (x.val : Int)

/-- The source expression `str[i]` for `const char* str`: the value of the plain
`char` at index `i`. -/
def readChar (P : Platform) (h : Heap) (s : Ptr) (i : Int) : Option Int :=
  match peek h s.block (s.off + i) with
  | some x => some (charValue P x)
  | none => none

/-- Conversion of an integer value to `wchar`: the value modulo
`256 ^ wcharSize`, the bit pattern the wide unit holds. -/
def toWChar (P : Platform) (c : Int) : Nat := (c % ((256 ^ P.wcharSize : Nat) : Int)).toNat

/-- The wide unit that the assignment `wstr[i] = str[i]` stores for a narrow
character whose byte is `x`. -/
def widenChar (P : Platform) (x : Byte) : Nat := toWChar P (charValue P x)

/-- The wide unit `((wchar*) w)[i]` of the wide string at `w`: the number its
`wcharSize` bytes stand for in the native byte order. -/
def readWChar (P : Platform) (h : Heap) (w : Ptr) (i : Int) : Option Nat :=
  match loadBytes h w.block (w.off + P.wcharSize * i) P.wcharSize with
  | some bs => some (decode P.order bs)
  | none => none

/-- Store the value `v`, converted to `wchar`, as wide unit `i`:
`((wchar*) w)[i] = v`. -/
def writeWChar (P : Platform) (h : Heap) (w : Ptr) (i : Int) (v : Nat) : Option Heap :=
  storeBytes h w.block (w.off + P.wcharSize * i) (encode P.order P.wcharSize v)

/-- Modelled from the spec: `strlen` of the C library is not in the source
file.  `len(s)` of a zero-terminated narrow string: the number of bytes before
the first zero byte; `none` when the block ends before a zero byte.  The scan
can take no more steps than the block has bytes. -/
def strlen (h : Heap) (s : Ptr) : Option Nat :=
  scanZero (fun i => readByte h s i) ((blockSize h s.block).getD 0 + 1) 0

/-- Modelled from the spec: `wcslen` of the C library is not in the source
file.  `len(w)` of a zero-terminated wide string: the number of wide units before
the first zero unit; `none` when the block ends before a zero unit. -/
def wcslen (P : Platform) (h : Heap) (w : Ptr) : Option Nat :=
  scanZero (fun i => readWChar P h w i) ((blockSize h w.block).getD 0 + 1) 0

/-- The loop body of `SysStringCharToWideChar`: `wstr[i] = str[i];` where the
`char` value is converted to `wchar`. -/
def charToWideBody (P : Platform) (str wstr : Ptr) (i : Int) (h : Heap) : Option Heap :=
  match readChar P h str i with
  | some c => writeWChar P h wstr i (toWChar P c)
  | none => none

/-- Source `SysStringCharToWideChar`.  The result is `none` for undefined
behaviour, otherwise the returned pointer (`none` is `NULL`) and the memory. -/
def SysStringCharToWideChar (P : Platform) (h : Heap) (str : Option Ptr)
    (fresh : Option (Nat → Byte)) : Option (Option Ptr × Heap) :=
  match str with
  | none => some (none, h)
  | some s =>
    match strlen h s with
    | none => none
    | some n =>
      let length : Int := toI32 n
      match SysAlloc h (toI32 (toU32 (1 + length) * P.wcharSize)) fresh with
      | (none, h1) => some (none, h1)
      | (some wstr, h1) =>
        match forLoop (charToWideBody P s wstr) length.toNat 0 h1 with
        | none => none
        | some (i, h2) =>
          match writeWChar P h2 wstr i 0 with
          | none => none
          | some h3 => some (some wstr, h3)

/-- The loop body of `SysStringWideCharToChar`:
`str[i] = (char) ((wchar*)wstr)[i];` where the conversion to `char` keeps the
low 8 bits. -/
def wideToCharBody (P : Platform) (wstr str : Ptr) (i : Int) (h : Heap) : Option Heap :=
  match readWChar P h wstr i with
  | some u => poke h str.block (str.off + i) (toByte u)
  | none => none

/-- Source `SysStringWideCharToChar`.  The result is `none` for undefined
behaviour, otherwise the returned pointer (`none` is `NULL`) and the memory. -/
def SysStringWideCharToChar (P : Platform) (h : Heap) (wstr : Option Ptr)
    (fresh : Option (Nat → Byte)) : Option (Option Ptr × Heap) :=
  match wstr with
  | none => some (none, h)
  | some w =>
    match wcslen P h w with
    | none => none
    | some n =>
      let length : Int := toI32 n
      match SysAlloc h (toI32 (toU32 (1 + length) * 1)) fresh with
      | (none, h1) => some (none, h1)
      | (some str, h1) =>
        match forLoop (wideToCharBody P w str) length.toNat 0 h1 with
        | none => none
        | some (i, h2) =>
          match poke h2 str.block (str.off + i) 0 with
          | none => none
          | some h3 => some (some str, h3)

/-- The zero-terminated narrow string at `p` is `s`: the bytes of `s`, none of
them zero, followed by a zero byte. -/
def IsCStr (h : Heap) (p : Ptr) (s : List Byte) : Prop :=
  (∀ i : Nat, i < s.length → peek h p.block (p.off + i) = s[i]?) ∧
  (∀ x, x ∈ s → x ≠ 0) ∧
  peek h p.block (p.off + s.length) = some 0

instance (h : Heap) (p : Ptr) (s : List Byte) : Decidable (IsCStr h p s) := by
  unfold IsCStr; infer_instance

/-- The zero-terminated wide string at `p` is `us`: the wide units `us`, none of
them zero, followed by a zero unit. -/
def IsWStr (P : Platform) (h : Heap) (p : Ptr) (us : List Nat) : Prop :=
  (∀ i : Nat, i < us.length → readWChar P h p i = us[i]?) ∧
  (∀ u, u ∈ us → u ≠ 0) ∧
  readWChar P h p us.length = some 0

instance (P : Platform) (h : Heap) (p : Ptr) (us : List Nat) : Decidable (IsWStr P h p us) := by
  unfold IsWStr; infer_instance

/-! ## Event functions -/

/-- The record type `MAEvent` is declared outside the source file; the byte
offsets of the fields the accessors read are parameters. -/
structure MAEventLayout where
  typeOff : Int
  pointXOff : Int
  pointYOff : Int
  touchIdOff : Int
  stateOff : Int
deriving DecidableEq, Repr

/-- Read the `int` field at byte offset `a` of the record at `p`. -/
def loadIntField (P : Platform) (h : Heap) (p : Ptr) (a : Int) : Option Int :=
  match loadBytes h p.block (p.off + a) sizeofInt with
  | some bs => some (toI32 (decode P.order bs))
  | none => none

/-- Source `SysEventGetType`: `return event->type;` -/
def SysEventGetType (L : MAEventLayout) (P : Platform) (h : Heap) (event : Ptr) :
    Option Int :=
  loadIntField P h event L.typeOff

/-- Source `SysEventGetX`: `return event->point.x;` -/
def SysEventGetX (L : MAEventLayout) (P : Platform) (h : Heap) (event : Ptr) :
    Option Int :=
  loadIntField P h event L.pointXOff

/-- Source `SysEventGetY`: `return event->point.y;` -/
def SysEventGetY (L : MAEventLayout) (P : Platform) (h : Heap) (event : Ptr) :
    Option Int :=
  loadIntField P h event L.pointYOff

/-- Source `SysEventGetTouchId`: `return event->touchId;` -/
def SysEventGetTouchId (L : MAEventLayout) (P : Platform) (h : Heap) (event : Ptr) :
    Option Int :=
  loadIntField P h event L.touchIdOff

/-- Source `SysEventGetState`: `return event->state;` -/
def SysEventGetState (L : MAEventLayout) (P : Platform) (h : Heap) (event : Ptr) :
    Option Int :=
  loadIntField P h event L.stateOff

/-- The `int` field at byte offset `a` of the record at `p` holds `v`: its
four bytes are the native representation of `v`. -/
def FieldHolds (P : Platform) (h : Heap) (p : Ptr) (a : Int) (v : Int) : Prop :=
  loadBytes h p.block (p.off + a) sizeofInt = some (encode P.order sizeofInt (toU32 v))

instance (P : Platform) (h : Heap) (p : Ptr) (a v : Int) : Decidable (FieldHolds P h p a v) := by
  unfold FieldHolds; infer_instance

/-! ## Index ranges -/

/-- The `int` index `i` of `buffer` is in range: the four bytes of `p[i]` are
inside the block of `buffer`. -/
def IntInRange (h : Heap) (buffer : Ptr) (i : Int) : Prop :=
  InRange h buffer.block (buffer.off + sizeofInt * i) sizeofInt

/-- The byte index `i` of `buffer` is in range. -/
def ByteInRange (h : Heap) (buffer : Ptr) (i : Int) : Prop :=
  InRange h buffer.block (buffer.off + i) 1

instance (h : Heap) (buffer : Ptr) (i : Int) : Decidable (IntInRange h buffer i) := by
  unfold IntInRange; infer_instance

instance (h : Heap) (buffer : Ptr) (i : Int) : Decidable (ByteInRange h buffer i) := by
  unfold ByteInRange; infer_instance

/-! ## Example values -/

/-- A little-endian platform with 16-bit `wchar`. -/
def examplePlatform : Platform := { order := .little, wcharSize := 2, charSigned := false }

/-- A record layout with the type field first and the four pointer fields after it. -/
def exampleLayout : MAEventLayout :=
  { typeOff := 0, pointXOff := 4, pointYOff := 8, touchIdOff := 12, stateOff := 16 }

/-- A memory holding one event record: type 8, x = 120, y = 340, touchId = 2, state = 1. -/
def exampleEventHeap : Heap :=
  [[8, 0, 0, 0, 120, 0, 0, 0, 84, 1, 0, 0, 2, 0, 0, 0, 1, 0, 0, 0]]

/-- The narrow string `hi`. -/
def exampleNarrow : List Byte := [104, 105]

/-- A wide string of three units, the second one outside the range 0 to 255. -/
def exampleWide : List Nat := [65, 256, 66]

/-- A memory holding `exampleNarrow` in block 0 and `exampleWide` (16-bit
little-endian units) in block 1, each with its zero terminator. -/
def exampleStringHeap : Heap := [[104, 105, 0], [65, 0, 0, 1, 66, 0, 0, 0]]

/-- A memory holding the empty narrow string in block 0 and the empty wide
string in block 1. -/
def exampleEmptyHeap : Heap := [[0], [0, 0]]

/-- An indeterminate content for a fresh block. -/
def exampleFresh : Nat → Byte := fun _ => 170

/-! ## Sizes of C data types -/

/-- Modelled from the spec: the value of `sizeof(float)` is left to the
compiler; the standard fixed width on the supported targets is 4. -/
def sizeofFloat : Nat := 4

/-- Modelled from the spec: the value of `sizeof(double)` is left to the
compiler; the standard fixed width on the supported targets is 8. -/
def sizeofDouble : Nat := 8

/-- Source `SysSizeOfInt`: `return (int) sizeof(int);` -/
def SysSizeOfInt : Int := sizeofInt

/-- Source `SysSizeOfFloat`: `return (int) sizeof(float);` -/
def SysSizeOfFloat : Int := sizeofFloat

/-- Source `SysSizeOfDouble`: `return (int) sizeof(double);` -/
def SysSizeOfDouble : Int := sizeofDouble

/-! ## Float and double views -/

/-- Source `SysBufferGetFloat`: `float* p = (float*) buffer; return p[index];`
The `float` read is given by its representation: the number its `sizeofFloat`
bytes stand for in the native byte order (its 32-bit pattern). -/
def SysBufferGetFloat (P : Platform) (h : Heap) (buffer : Ptr) (index : Int) : Option Nat :=
  match loadBytes h buffer.block (buffer.off + sizeofFloat * index) sizeofFloat with
  | some bs => some (decode P.order bs)
  | none => none

/-- Source `SysBufferGetDouble`: `double* p = (double*) buffer; return p[index];`
The `double` read is given by its representation: the number its `sizeofDouble`
bytes stand for in the native byte order (its 64-bit pattern). -/
def SysBufferGetDouble (P : Platform) (h : Heap) (buffer : Ptr) (index : Int) : Option Nat :=
  match loadBytes h buffer.block (buffer.off + sizeofDouble * index) sizeofDouble with
  | some bs => some (decode P.order bs)
  | none => none

/-- The 64-bit pattern made of the two 32-bit patterns `first` and `second`
stored one after the other in the native byte order. -/
def joinWords (o : ByteOrder) (first second : Nat) : Nat :=
  match o with
  | .little => first + 4294967296 * second
  | .big => 4294967296 * first + second

/-! ## Bit shifts -/

/-- Source `SysBitShiftLeft`: `return ((unsigned int) a) << bits;`
A shift by a negative count or by 32 or more is undefined behaviour (`none`). -/
def SysBitShiftLeft (a bits : Int) : Option Int :=
  if 0 ≤ bits ∧ bits < 32 then some (toI32 ((toU32 a <<< bits.toNat) % 4294967296))
  else none

/-- Source `SysBitShiftRight`: `return ((unsigned int) a) >> bits;`
A shift by a negative count or by 32 or more is undefined behaviour (`none`). -/
def SysBitShiftRight (a bits : Int) : Option Int :=
  if 0 ≤ bits ∧ bits < 32 then some (toI32 (toU32 a >>> bits.toNat))
  else none

/-! ## Point and rect functions -/

/-- The record type `MAPoint2d` is declared outside the source file; the byte
offsets of its two `int` fields are parameters. -/
structure MAPoint2dLayout where
  xOff : Int
  yOff : Int
deriving DecidableEq, Repr

/-- The record type `MARect` is declared outside the source file; the byte
offsets of its four `int` fields are parameters. -/
structure MARectLayout where
  leftOff : Int
  topOff : Int
  widthOff : Int
  heightOff : Int
deriving DecidableEq, Repr

/-- Two `int` fields at byte offsets `a` and `b` of a record do not overlap. -/
def SlotsApart (a b : Int) : Prop := a + sizeofInt ≤ b ∨ b + sizeofInt ≤ a

instance (a b : Int) : Decidable (SlotsApart a b) := by
  unfold SlotsApart; infer_instance

/-- The members of the C struct `MAPoint2d` do not overlap. -/
def MAPoint2dLayout.Apart (L : MAPoint2dLayout) : Prop := SlotsApart L.xOff L.yOff

instance (L : MAPoint2dLayout) : Decidable L.Apart := by
  unfold MAPoint2dLayout.Apart; infer_instance

/-- The members of the C struct `MARect` do not overlap. -/
def MARectLayout.Apart (L : MARectLayout) : Prop :=
  SlotsApart L.leftOff L.topOff ∧ SlotsApart L.leftOff L.widthOff ∧
  SlotsApart L.leftOff L.heightOff ∧ SlotsApart L.topOff L.widthOff ∧
  SlotsApart L.topOff L.heightOff ∧ SlotsApart L.widthOff L.heightOff

instance (L : MARectLayout) : Decidable L.Apart := by
  unfold MARectLayout.Apart; infer_instance

/-- Write the `int` field at byte offset `a` of the record at `p`. -/
def storeIntField (P : Platform) (h : Heap) (p : Ptr) (a : Int) (v : Int) : Option Heap :=
  storeBytes h p.block (p.off + a) (encode P.order sizeofInt (toU32 v))

/-- Source `SysPointGetX`: `return point->x;` -/
def SysPointGetX (L : MAPoint2dLayout) (P : Platform) (h : Heap) (point : Ptr) : Option Int :=
  loadIntField P h point L.xOff

/-- Source `SysPointGetY`: `return point->y;` -/
def SysPointGetY (L : MAPoint2dLayout) (P : Platform) (h : Heap) (point : Ptr) : Option Int :=
  loadIntField P h point L.yOff

/-- Source `SysPointSetX`: `point->x = x;` -/
def SysPointSetX (L : MAPoint2dLayout) (P : Platform) (h : Heap) (point : Ptr) (x : Int) :
    Option Heap :=
  storeIntField P h point L.xOff x

/-- Source `SysPointSetY`: `point->y = y;` -/
def SysPointSetY (L : MAPoint2dLayout) (P : Platform) (h : Heap) (point : Ptr) (y : Int) :
    Option Heap :=
  storeIntField P h point L.yOff y

/-- Source `SysRectGetLeft`: `return rect->left;` -/
def SysRectGetLeft (L : MARectLayout) (P : Platform) (h : Heap) (rect : Ptr) : Option Int :=
  loadIntField P h rect L.leftOff

/-- Source `SysRectGetTop`: `return rect->top;` -/
def SysRectGetTop (L : MARectLayout) (P : Platform) (h : Heap) (rect : Ptr) : Option Int :=
  loadIntField P h rect L.topOff

/-- Source `SysRectGetWidth`: `return rect->width;` -/
def SysRectGetWidth (L : MARectLayout) (P : Platform) (h : Heap) (rect : Ptr) : Option Int :=
  loadIntField P h rect L.widthOff

/-- Source `SysRectGetHeight`: `return rect->height;` -/
def SysRectGetHeight (L : MARectLayout) (P : Platform) (h : Heap) (rect : Ptr) : Option Int :=
  loadIntField P h rect L.heightOff

/-- Source `SysRectSetLeft`: `rect->left = left;` -/
def SysRectSetLeft (L : MARectLayout) (P : Platform) (h : Heap) (rect : Ptr) (left : Int) :
    Option Heap :=
  storeIntField P h rect L.leftOff left

/-- Source `SysRectSetTop`: `rect->top = top;` -/
def SysRectSetTop (L : MARectLayout) (P : Platform) (h : Heap) (rect : Ptr) (top : Int) :
    Option Heap :=
  storeIntField P h rect L.topOff top

/-- Source `SysRectSetWidth`: `rect->width = width;` -/
def SysRectSetWidth (L : MARectLayout) (P : Platform) (h : Heap) (rect : Ptr) (width : Int) :
    Option Heap :=
  storeIntField P h rect L.widthOff width

/-- Source `SysRectSetHeight`: `rect->height = height;` -/
def SysRectSetHeight (L : MARectLayout) (P : Platform) (h : Heap) (rect : Ptr) (height : Int) :
    Option Heap :=
  storeIntField P h rect L.heightOff height

/-- The `int` field at byte offset `a` of the record at `p` is inside the block. -/
def FieldInRange (h : Heap) (p : Ptr) (a : Int) : Prop :=
  InRange h p.block (p.off + a) sizeofInt

instance (h : Heap) (p : Ptr) (a : Int) : Decidable (FieldInRange h p a) := by
  unfold FieldInRange; infer_instance

/-- The four fields of the rect at `rect` are inside its block. -/
def RectInRange (L : MARectLayout) (h : Heap) (rect : Ptr) : Prop :=
  FieldInRange h rect L.leftOff ∧ FieldInRange h rect L.topOff ∧
  FieldInRange h rect L.widthOff ∧ FieldInRange h rect L.heightOff

instance (L : MARectLayout) (h : Heap) (rect : Ptr) : Decidable (RectInRange L h rect) := by
  unfold RectInRange; infer_instance

/-- The two fields of the point at `point` are inside its block. -/
def PointInRange (L : MAPoint2dLayout) (h : Heap) (point : Ptr) : Prop :=
  FieldInRange h point L.xOff ∧ FieldInRange h point L.yOff

instance (L : MAPoint2dLayout) (h : Heap) (point : Ptr) :
    Decidable (PointInRange L h point) := by
  unfold PointInRange; infer_instance

/-! ## Further example values -/

/-- The layout of a point: `x` then `y`. -/
def examplePointLayout : MAPoint2dLayout := { xOff := 0, yOff := 4 }

/-- The layout of a rect: `left`, `top`, `width`, `height`. -/
def exampleRectLayout : MARectLayout :=
  { leftOff := 0, topOff := 4, widthOff := 8, heightOff := 12 }

/-- A memory holding a rect (1, 2, 3, 4) in block 0 and a point (5, 6) in block 1. -/
def exampleGeometryHeap : Heap :=
  [[1, 0, 0, 0, 2, 0, 0, 0, 3, 0, 0, 0, 4, 0, 0, 0], [5, 0, 0, 0, 6, 0, 0, 0]]

/-- A memory of one block of eight bytes. -/
def exampleBufferHeap : Heap := [[1, 2, 3, 4, 5, 6, 7, 8]]

/-- A little-endian platform with 16-bit `wchar` whose plain `char` is signed. -/
def exampleSignedPlatform : Platform :=
  { order := .little, wcharSize := 2, charSigned := true }

/-- The narrow string of the one byte `0xE9` (233). -/
def exampleHighNarrow : List Byte := [233]

/-- A memory holding `exampleHighNarrow` and its zero terminator in block 0. -/
def exampleHighHeap : Heap := [[233, 0]]

/-! ## Machine integer lemmas -/

theorem toU32_lt (a : Int) : toU32 a < 4294967296 := by
  unfold toU32; omega

theorem toI32_toU32 (a : Int) (ha : IsInt32 a) : toI32 (toU32 a) = a := by
  unfold IsInt32 at ha
  unfold toI32 toU32
  split <;> omega

theorem toI32_isInt32 (u : Nat) : IsInt32 (toI32 u) := by
  unfold IsInt32 toI32
  split <;> omega

/-! ## Heap lemmas -/

theorem peek_eq_some_iff (h : Heap) (b : Nat) (a : Int) (x : Byte) :
    peek h b a = some x ↔ ∃ blk, h[b]? = some blk ∧ 0 ≤ a ∧ blk[a.toNat]? = some x := by
  unfold peek
  by_cases ha : 0 ≤ a
  · cases hb : h[b]? with
    | none => simp [ha]
    | some blk => simp [ha]
  · simp [ha]

theorem inRange_one_iff (h : Heap) (b : Nat) (a : Int) :
    InRange h b a 1 ↔ ∃ x, peek h b a = some x := by
  unfold InRange blockSize peek
  by_cases ha : 0 ≤ a
  · cases hb : h[b]? with
    | none => simp
    | some blk =>
      simp only [Option.map_some', Option.some.injEq, exists_eq_left', ha, true_and, if_true]
      constructor
      · intro hlt
        have : a.toNat < blk.length := by omega
        exact ⟨blk[a.toNat], List.getElem?_eq_getElem this⟩
      · rintro ⟨x, hx⟩
        obtain ⟨hlt, -⟩ := List.getElem?_eq_some.mp hx
        push_cast
        omega
  · constructor
    · rintro ⟨sz, -, h0, -⟩; exact absurd h0 ha
    · simp [ha]

theorem inRange_mono {h : Heap} {b : Nat} {a : Int} {n : Nat} (hr : InRange h b a n)
    (a1 : Int) (n1 : Nat) (h1 : a ≤ a1) (h2 : a1 + n1 ≤ a + n) : InRange h b a1 n1 := by
  obtain ⟨sz, hsz, h0, hle⟩ := hr
  exact ⟨sz, hsz, by omega, by omega⟩

theorem poke_some_of_inRange (h : Heap) (b : Nat) (a : Int) (v : Byte)
    (hr : InRange h b a 1) : ∃ h1, poke h b a v = some h1 := by
  obtain ⟨sz, hsz, h0, hle⟩ := hr
  unfold blockSize at hsz
  unfold poke
  cases hb : h[b]? with
  | none => simp [hb] at hsz
  | some blk =>
    simp only [hb, Option.map_some', Option.some.injEq] at hsz
    have : a.toNat < blk.length := by omega
    simp [h0, this]

theorem inRange_of_poke {h h1 : Heap} {b : Nat} {a : Int} {v : Byte}
    (hp : poke h b a v = some h1) : InRange h b a 1 := by
  unfold poke at hp
  by_cases ha : 0 ≤ a
  · cases hb : h[b]? with
    | none => simp [ha, hb] at hp
    | some blk =>
      simp only [ha, hb, if_true] at hp
      by_cases hlt : a.toNat < blk.length
      · refine ⟨blk.length, by simp [blockSize, hb], ha, ?_⟩
        push_cast
        omega
      · simp [hlt] at hp
  · simp [ha] at hp

theorem peek_poke {h h1 : Heap} {b : Nat} {a : Int} {v : Byte}
    (hp : poke h b a v = some h1) (b1 : Nat) (a1 : Int) :
    peek h1 b1 a1 = if b1 = b ∧ a1 = a then some v else peek h b1 a1 := by
  unfold poke at hp
  by_cases ha : 0 ≤ a
  · cases hb : h[b]? with
    | none => simp [ha, hb] at hp
    | some blk =>
      simp only [ha, hb, if_true] at hp
      by_cases hlt : a.toNat < blk.length
      · simp only [hlt, if_true, Option.some.injEq] at hp
        subst hp
        have hbl : b < h.length := by
          obtain ⟨hlt1, -⟩ := List.getElem?_eq_some.mp hb
          exact hlt1
        unfold peek
        by_cases ha1 : 0 ≤ a1
        · simp only [ha1, if_true, List.getElem?_set]
          by_cases hbb : b = b1
          · subst hbb
            simp only [hbl, if_true, true_and, hb]
            by_cases haa : a1 = a
            · subst haa
              simp [hlt]
            · have : a.toNat ≠ a1.toNat := by omega
              simp [haa, this]
          · have : ¬ b1 = b := fun e => hbb e.symm
            simp [hbb, this]
        · have : ¬ (b1 = b ∧ a1 = a) := by
            rintro ⟨-, e⟩; subst e; exact ha1 ha
          simp [ha1, this]
      · simp [hlt] at hp
  · simp [ha] at hp

theorem blockSize_poke {h h1 : Heap} {b : Nat} {a : Int} {v : Byte}
    (hp : poke h b a v = some h1) (b1 : Nat) : blockSize h1 b1 = blockSize h b1 := by
  unfold poke at hp
  by_cases ha : 0 ≤ a
  · cases hb : h[b]? with
    | none => simp [ha, hb] at hp
    | some blk =>
      simp only [ha, hb, if_true] at hp
      by_cases hlt : a.toNat < blk.length
      · simp only [hlt, if_true, Option.some.injEq] at hp
        subst hp
        unfold blockSize
        simp only [List.getElem?_set]
        by_cases hbb : b = b1
        · subst hbb
          have hbl : b < h.length := by
            obtain ⟨hlt1, -⟩ := List.getElem?_eq_some.mp hb
            exact hlt1
          simp [hbl, hb]
        · simp [hbb]
      · simp [hlt] at hp
  · simp [ha] at hp

theorem inRange_poke {h h1 : Heap} {b : Nat} {a : Int} {v : Byte}
    (hp : poke h b a v = some h1) (b1 : Nat) (a1 : Int) (n : Nat) :
    InRange h1 b1 a1 n ↔ InRange h b1 a1 n := by
  unfold InRange
  rw [blockSize_poke hp]

theorem peek_storeBytes (bs : List Byte) :
    ∀ {h h1 : Heap} {b : Nat} {a : Int}, storeBytes h b a bs = some h1 →
      ∀ (b1 : Nat) (a1 : Int),
        peek h1 b1 a1 =
          if b1 = b ∧ a ≤ a1 ∧ a1 < a + bs.length then bs[(a1 - a).toNat]? else peek h b1 a1 := by
  induction bs with
  | nil =>
    intro h h1 b a hs b1 a1
    simp only [storeBytes, Option.some.injEq] at hs
    subst hs
    have c : ¬ (b1 = b ∧ a ≤ a1 ∧ a1 < a + (([] : List Byte).length : Int)) := by
      simp only [List.length_nil]
      omega
    rw [if_neg c]
  | cons x xs ih =>
    intro h h1 b a hs b1 a1
    simp only [storeBytes] at hs
    cases hp : poke h b a x with
    | none => simp [hp] at hs
    | some h2 =>
      simp only [hp] at hs
      rw [ih hs b1 a1, peek_poke hp b1 a1]
      have hlen : (((x :: xs).length : Nat) : Int) = (xs.length : Int) + 1 := by
        simp only [List.length_cons]
        push_cast
        rfl
      by_cases hb : b1 = b
      · by_cases h0 : a1 = a
        · subst h0
          have c1 : ¬ (b1 = b ∧ a1 + 1 ≤ a1 ∧ a1 < a1 + 1 + (xs.length : Int)) := by omega
          have c2 : b1 = b ∧ a1 ≤ a1 ∧ a1 < a1 + (((x :: xs).length : Nat) : Int) :=
            ⟨hb, le_refl _, by omega⟩
          have c3 : b1 = b ∧ a1 = a1 := ⟨hb, rfl⟩
          rw [if_neg c1, if_pos c2, if_pos c3]
          simp
        · by_cases hin : a + 1 ≤ a1 ∧ a1 < a + 1 + (xs.length : Int)
          · have c1 : b1 = b ∧ a + 1 ≤ a1 ∧ a1 < a + 1 + (xs.length : Int) := ⟨hb, hin⟩
            have c2 : b1 = b ∧ a ≤ a1 ∧ a1 < a + (((x :: xs).length : Nat) : Int) :=
              ⟨hb, by omega, by omega⟩
            have e : (a1 - a).toNat = (a1 - (a + 1)).toNat + 1 := by omega
            rw [if_pos c1, if_pos c2, e, List.getElem?_cons_succ]
          · have c1 : ¬ (b1 = b ∧ a + 1 ≤ a1 ∧ a1 < a + 1 + (xs.length : Int)) := by
              rintro ⟨-, q⟩; exact hin q
            have c2 : ¬ (b1 = b ∧ a ≤ a1 ∧ a1 < a + (((x :: xs).length : Nat) : Int)) := by
              omega
            have c3 : ¬ (b1 = b ∧ a1 = a) := by
              rintro ⟨-, q⟩; exact h0 q
            rw [if_neg c1, if_neg c2, if_neg c3]
      · have c1 : ¬ (b1 = b ∧ a + 1 ≤ a1 ∧ a1 < a + 1 + (xs.length : Int)) := by
          rintro ⟨q, -⟩; exact hb q
        have c2 : ¬ (b1 = b ∧ a ≤ a1 ∧ a1 < a + (((x :: xs).length : Nat) : Int)) := by
          rintro ⟨q, -⟩; exact hb q
        have c3 : ¬ (b1 = b ∧ a1 = a) := by
          rintro ⟨q, -⟩; exact hb q
        rw [if_neg c1, if_neg c2, if_neg c3]

theorem blockSize_storeBytes (bs : List Byte) :
    ∀ {h h1 : Heap} {b : Nat} {a : Int}, storeBytes h b a bs = some h1 →
      ∀ b1, blockSize h1 b1 = blockSize h b1 := by
  induction bs with
  | nil =>
    intro h h1 b a hs b1
    simp only [storeBytes, Option.some.injEq] at hs
    subst hs
    rfl
  | cons x xs ih =>
    intro h h1 b a hs b1
    simp only [storeBytes] at hs
    cases hp : poke h b a x with
    | none => simp [hp] at hs
    | some h2 =>
      simp only [hp] at hs
      rw [ih hs b1, blockSize_poke hp b1]

theorem storeBytes_some_of_inRange (bs : List Byte) :
    ∀ (h : Heap) (b : Nat) (a : Int), InRange h b a bs.length →
      ∃ h1, storeBytes h b a bs = some h1 := by
  induction bs with
  | nil =>
    intro h b a _
    exact ⟨h, rfl⟩
  | cons x xs ih =>
    intro h b a hr
    simp only [List.length_cons] at hr
    obtain ⟨h2, hp⟩ := poke_some_of_inRange h b a x
      (inRange_mono hr a 1 (le_refl _) (by push_cast; omega))
    have hr2 : InRange h2 b (a + 1) xs.length :=
      (inRange_poke hp b (a + 1) xs.length).mpr
        (inRange_mono hr (a + 1) xs.length (by omega) (by push_cast; omega))
    obtain ⟨h1, hs⟩ := ih h2 b (a + 1) hr2
    exact ⟨h1, by simp only [storeBytes, hp, hs]⟩

theorem loadBytes_eq_some_iff (n : Nat) :
    ∀ (h : Heap) (b : Nat) (a : Int) (l : List Byte),
      loadBytes h b a n = some l ↔
        l.length = n ∧ ∀ k : Nat, k < n → peek h b (a + k) = l[k]? := by
  induction n with
  | zero =>
    intro h b a l
    simp only [loadBytes, Option.some.injEq]
    constructor
    · intro e; subst e; simp
    · rintro ⟨hl, -⟩
      exact (List.length_eq_zero.mp hl).symm
  | succ n ih =>
    intro h b a l
    simp only [loadBytes]
    constructor
    · intro hl
      cases hp : peek h b a with
      | none => simp [hp] at hl
      | some x =>
        simp only [hp] at hl
        cases hr : loadBytes h b (a + 1) n with
        | none => simp [hr] at hl
        | some xs =>
          simp only [hr, Option.some.injEq] at hl
          subst hl
          obtain ⟨hlen, hk⟩ := (ih h b (a + 1) xs).mp hr
          refine ⟨by simp [hlen], ?_⟩
          intro k hk1
          cases k with
          | zero => simpa using hp
          | succ k =>
            have := hk k (by omega)
            simp only [List.getElem?_cons_succ]
            rw [← this]
            congr 1
            push_cast
            omega
    · rintro ⟨hlen, hk⟩
      cases l with
      | nil => simp at hlen
      | cons x xs =>
        have h0 := hk 0 (by omega)
        simp only [Nat.cast_zero, add_zero, List.getElem?_cons_zero] at h0
        have hr : loadBytes h b (a + 1) n = some xs := by
          refine (ih h b (a + 1) xs).mpr ⟨by simpa using hlen, ?_⟩
          intro k hk1
          have := hk (k + 1) (by omega)
          simp only [List.getElem?_cons_succ] at this
          rw [← this]
          congr 1
          push_cast
          omega
        simp [h0, hr]

theorem loadBytes_congr (n : Nat) (h h1 : Heap) (b : Nat) (a : Int)
    (hk : ∀ k : Nat, k < n → peek h1 b (a + k) = peek h b (a + k)) :
    loadBytes h1 b a n = loadBytes h b a n := by
  cases hl : loadBytes h b a n with
  | some l =>
    obtain ⟨hlen, hp⟩ := (loadBytes_eq_some_iff n h b a l).mp hl
    exact (loadBytes_eq_some_iff n h1 b a l).mpr ⟨hlen, fun k hk1 => by rw [hk k hk1, hp k hk1]⟩
  | none =>
    cases hl1 : loadBytes h1 b a n with
    | none => rfl
    | some l =>
      obtain ⟨hlen, hp⟩ := (loadBytes_eq_some_iff n h1 b a l).mp hl1
      have := (loadBytes_eq_some_iff n h b a l).mpr
        ⟨hlen, fun k hk1 => by rw [← hk k hk1, hp k hk1]⟩
      rw [hl] at this
      cases this

theorem loadBytes_storeBytes_same {h h1 : Heap} {b : Nat} {a : Int} {bs : List Byte}
    (hs : storeBytes h b a bs = some h1) : loadBytes h1 b a bs.length = some bs := by
  refine (loadBytes_eq_some_iff bs.length h1 b a bs).mpr ⟨rfl, ?_⟩
  intro k hk
  rw [peek_storeBytes bs hs b (a + k)]
  have c : b = b ∧ a ≤ a + (k : Int) ∧ a + (k : Int) < a + (bs.length : Int) := by
    refine ⟨rfl, by omega, by omega⟩
  have e : (a + (k : Int) - a).toNat = k := by omega
  simp only [c, and_self, if_true, e]

theorem loadBytes_storeBytes_apart {h h1 : Heap} {b : Nat} {a : Int} {bs : List Byte}
    (hs : storeBytes h b a bs = some h1) (b1 : Nat) (a1 : Int) (n : Nat)
    (hd : b1 ≠ b ∨ a1 + n ≤ a ∨ a + bs.length ≤ a1) :
    loadBytes h1 b1 a1 n = loadBytes h b1 a1 n := by
  apply loadBytes_congr
  intro k hk
  rw [peek_storeBytes bs hs b1 (a1 + k)]
  have c : ¬ (b1 = b ∧ a ≤ a1 + (k : Int) ∧ a1 + (k : Int) < a + (bs.length : Int)) := by
    rintro ⟨e, h2, h3⟩
    rcases hd with hd | hd | hd
    · exact hd e
    · omega
    · omega
  simp only [c, if_false]

theorem loadBytes_some_of_inRange (n : Nat) (h : Heap) (b : Nat) (a : Int)
    (hr : InRange h b a n) : ∃ l, loadBytes h b a n = some l := by
  induction n generalizing a with
  | zero => exact ⟨[], rfl⟩
  | succ n ih =>
    obtain ⟨x, hx⟩ := (inRange_one_iff h b a).mp
      (inRange_mono hr a 1 (le_refl _) (by push_cast; omega))
    obtain ⟨xs, hxs⟩ := ih (a + 1) (inRange_mono hr (a + 1) n (by omega) (by push_cast; omega))
    exact ⟨x :: xs, by simp only [loadBytes, hx, hxs]⟩

/-! ## Representation lemmas -/

theorem length_encodeLE (n : Nat) : ∀ v, (encodeLE n v).length = n := by
  induction n with
  | zero => intro v; rfl
  | succ n ih => intro v; simp [encodeLE, ih]

theorem length_encode (o : ByteOrder) (n v : Nat) : (encode o n v).length = n := by
  cases o <;> simp [encode, length_encodeLE]

theorem decodeLE_encodeLE (n : Nat) : ∀ v, decodeLE (encodeLE n v) = v % 256 ^ n := by
  induction n with
  | zero => intro v; simp [encodeLE, decodeLE, Nat.mod_one]
  | succ n ih =>
    intro v
    simp only [encodeLE, decodeLE, ih, toByte]
    rw [pow_succ, Nat.mul_comm (256 ^ n) 256, Nat.mod_mul]

theorem decode_encode (o : ByteOrder) (n v : Nat) : decode o (encode o n v) = v % 256 ^ n := by
  cases o <;> simp [decode, encode, decodeLE_encodeLE]

theorem getElem?_encodeLE (n : Nat) :
    ∀ (v k : Nat), k < n → (encodeLE n v)[k]? = some (toByte (v / 256 ^ k)) := by
  induction n with
  | zero => intro v k hk; omega
  | succ n ih =>
    intro v k hk
    cases k with
    | zero => simp [encodeLE]
    | succ k =>
      simp only [encodeLE, List.getElem?_cons_succ]
      rw [ih (v / 256) k (by omega), Nat.div_div_eq_div_mul, pow_succ, Nat.mul_comm]

/-- C5: the source's AND, OR and XOR combine the first operand with itself and
ignore the second: for all 32-bit `a` and every `b`, `SysBitAnd a b = a`,
`SysBitOr a b = a` and `SysBitXor a b = 0`; `SysBitAnd 0b1010 0b0110` is
`0b1010`, not `0b0010`. -/
theorem SysBit_first_operand_only (a b : Int) (ha : IsInt32 a) :
    SysBitAnd a b = a ∧ SysBitOr a b = a ∧ SysBitXor a b = 0 ∧
    SysBitAnd 10 6 = 10 ∧ SysBitAnd 10 6 ≠ 2 := by
  refine ⟨?_, ?_, ?_, ?_, ?_⟩
  · simp only [SysBitAnd, Nat.and_self]; exact toI32_toU32 a ha
  · simp only [SysBitOr, Nat.or_self]; exact toI32_toU32 a ha
  · simp only [SysBitXor, Nat.xor_self]; rfl
  · decide
  · decide

theorem SysBit_first_operand_only_witness :
    IsInt32 (-7) ∧ SysBitAnd (-7) 12 = -7 ∧ SysBitOr (-7) 12 = -7 ∧
    SysBitXor (-7) 12 = 0 :=
  ⟨by decide, (SysBit_first_operand_only (-7) 12 (by decide)).1,
    (SysBit_first_operand_only (-7) 12 (by decide)).2.1,
    (SysBit_first_operand_only (-7) 12 (by decide)).2.2.1⟩

/-! ## The for loop -/

/-- Invariant rule for `forLoop`: when `Inv 0` holds of the initial memory and
every run of the body in a memory satisfying `Inv j` succeeds and establishes
`Inv (j + 1)`, the loop of `n` iterations succeeds, ends with the loop variable
at `i0 + n`, and `Inv n` holds of the final memory. -/
theorem forLoop_invariant (body : Int → Heap → Option Heap) (n : Nat) :
    ∀ (Inv : Nat → Heap → Prop) (i0 : Int) (h : Heap), Inv 0 h →
      (∀ (j : Nat) (hj : Heap), j < n → Inv j hj →
        ∃ hj1, body (i0 + j) hj = some hj1 ∧ Inv (j + 1) hj1) →
      ∃ h1, forLoop body n i0 h = some (i0 + n, h1) ∧ Inv n h1 := by
  induction n with
  | zero =>
    intro Inv i0 h h0 _
    exact ⟨h, by simp [forLoop], h0⟩
  | succ n ih =>
    intro Inv i0 h h0 hstep
    obtain ⟨h1, hb, hi1⟩ := hstep 0 h (by omega) h0
    simp only [Nat.cast_zero, add_zero] at hb
    obtain ⟨h2, hl, hi2⟩ := ih (fun j => Inv (j + 1)) (i0 + 1) h1 hi1 (by
      intro j hj hjn hinv
      obtain ⟨hj1, hb1, hi⟩ := hstep (j + 1) hj (by omega) hinv
      refine ⟨hj1, ?_, hi⟩
      rw [← hb1]
      congr 1
      push_cast
      omega)
    refine ⟨h2, ?_, hi2⟩
    simp only [forLoop, hb, hl]
    congr 2
    push_cast
    omega

/-! ## Byte copy -/

/-- The forward copy loop, byte by byte.  `f j` is the offset in the original
source range whose byte is what iteration `j` reads: `j` itself as long as the
loop has not yet overwritten source byte `j`, and otherwise the offset that was
read when that byte was written. -/
theorem forLoop_copyBody (h : Heap) (src : Ptr) (si : Int) (dst : Ptr) (di : Int)
    (n : Nat) (f : Nat → Int)
    (hsrc : InRange h src.block (src.off + si) n)
    (hdst : InRange h dst.block (dst.off + di) n)
    (hfr : ∀ j : Nat, j < n → 0 ≤ f j ∧ f j < n)
    (hf : ∀ j : Nat, j < n →
      f j = if src.block = dst.block ∧ dst.off + di ≤ src.off + si + j ∧
                src.off + si + j < dst.off + di + j
            then f (src.off + si + j - (dst.off + di)).toNat else (j : Int)) :
    ∃ h1, forLoop (copyBody src si dst di) n 0 h = some ((0 : Int) + n, h1) ∧
      ∀ (b : Nat) (a : Int), peek h1 b a =
        if b = dst.block ∧ dst.off + di ≤ a ∧ a < dst.off + di + n
        then peek h src.block (src.off + si + f (a - (dst.off + di)).toNat)
        else peek h b a := by
  apply forLoop_invariant (copyBody src si dst di) n
    (fun j hj => ∀ (b : Nat) (a : Int), peek hj b a =
        if b = dst.block ∧ dst.off + di ≤ a ∧ a < dst.off + di + j
        then peek h src.block (src.off + si + f (a - (dst.off + di)).toNat)
        else peek h b a)
  · intro b a
    have c : ¬ (b = dst.block ∧ dst.off + di ≤ a ∧ a < dst.off + di + ((0 : Nat) : Int)) := by
      push_cast
      omega
    rw [if_neg c]
  · intro j hj hjn hinv
    -- the byte read by iteration `j`
    have hread : peek hj src.block (src.off + (si + (0 + (j : Int)))) =
        peek h src.block (src.off + si + f j) := by
      rw [hinv, hf j hjn]
      have e1 : src.off + (si + (0 + (j : Int))) = src.off + si + j := by omega
      rw [e1]
      by_cases c : src.block = dst.block ∧ dst.off + di ≤ src.off + si + j ∧
          src.off + si + j < dst.off + di + j
      · rw [if_pos c, if_pos c]
      · rw [if_neg c, if_neg c]
    obtain ⟨x, hx⟩ := (inRange_one_iff h src.block (src.off + si + f j)).mp
      (inRange_mono hsrc _ 1 (by have := (hfr j hjn).1; omega)
        (by have := (hfr j hjn).2; push_cast; omega))
    -- the byte written by iteration `j` is in range
    have hw0 : peek hj dst.block (dst.off + (di + (0 + (j : Int)))) =
        peek h dst.block (dst.off + (di + (0 + (j : Int)))) := by
      rw [hinv]
      have c : ¬ (dst.block = dst.block ∧ dst.off + di ≤ dst.off + (di + (0 + (j : Int))) ∧
          dst.off + (di + (0 + (j : Int))) < dst.off + di + (j : Int)) := by omega
      rw [if_neg c]
    obtain ⟨y, hy⟩ := (inRange_one_iff h dst.block (dst.off + (di + (0 + (j : Int))))).mp
      (inRange_mono hdst _ 1 (by omega) (by push_cast; omega))
    obtain ⟨hj1, hp⟩ := poke_some_of_inRange hj dst.block (dst.off + (di + (0 + (j : Int)))) x
      ((inRange_one_iff hj _ _).mpr ⟨y, by rw [hw0, hy]⟩)
    refine ⟨hj1, ?_, ?_⟩
    · simp only [copyBody, hread, hx, hp]
    · intro b a
      rw [peek_poke hp b a]
      by_cases c : b = dst.block ∧ a = dst.off + (di + (0 + (j : Int)))
      · obtain ⟨cb, ca⟩ := c
        subst ca
        have c1 : b = dst.block ∧ dst.off + (di + (0 + (j : Int))) = dst.off + (di + (0 + (j : Int))) :=
          ⟨cb, rfl⟩
        have c2 : b = dst.block ∧ dst.off + di ≤ dst.off + (di + (0 + (j : Int))) ∧
            dst.off + (di + (0 + (j : Int))) < dst.off + di + ((j + 1 : Nat) : Int) :=
          ⟨cb, by omega, by push_cast; omega⟩
        have e : (dst.off + (di + (0 + (j : Int))) - (dst.off + di)).toNat = j := by omega
        rw [if_pos c1, if_pos c2, e, hx]
      · rw [if_neg c, hinv]
        by_cases c3 : b = dst.block ∧ dst.off + di ≤ a ∧ a < dst.off + di + (j : Int)
        · have c4 : b = dst.block ∧ dst.off + di ≤ a ∧ a < dst.off + di + ((j + 1 : Nat) : Int) :=
            ⟨c3.1, c3.2.1, by push_cast; omega⟩
          rw [if_pos c3, if_pos c4]
        · have c4 : ¬ (b = dst.block ∧ dst.off + di ≤ a ∧
              a < dst.off + di + ((j + 1 : Nat) : Int)) := by
            rintro ⟨q1, q2, q3⟩
            push_cast at q3
            by_cases q4 : a = dst.off + (di + (0 + (j : Int)))
            · exact c ⟨q1, q4⟩
            · exact c3 ⟨q1, q2, by omega⟩
          rw [if_neg c3, if_neg c4]

/-! ## Typed views -/

theorem SysBufferSetInt_some (P : Platform) (h : Heap) (buffer : Ptr) (i v : Int)
    (hr : IntInRange h buffer i) : ∃ h1, SysBufferSetInt P h buffer i v = some h1 := by
  unfold SysBufferSetInt
  apply storeBytes_some_of_inRange
  rw [length_encode]
  exact hr

theorem toI32_decode_encode (o : ByteOrder) (v : Int) (hv : IsInt32 v) :
    toI32 (decode o (encode o sizeofInt (toU32 v))) = v := by
  rw [decode_encode]
  have h1 : toU32 v % 256 ^ sizeofInt = toU32 v := by
    apply Nat.mod_eq_of_lt
    have := toU32_lt v
    simpa [sizeofInt] using this
  rw [h1]
  exact toI32_toU32 v hv

/-- C1: for every buffer, every in-range `int` index `i` and every 32-bit value
`v`, `SysBufferSetInt buffer i v` succeeds, `SysBufferGetInt buffer i` then
returns `v`, and `SysBufferGetInt buffer j` is unchanged for every other index
`j ≠ i`. -/
theorem SysBufferSetInt_GetInt_roundtrip (P : Platform) (h : Heap) (buffer : Ptr)
    (i v : Int) (hr : IntInRange h buffer i) (hv : IsInt32 v) :
    ∃ h1, SysBufferSetInt P h buffer i v = some h1 ∧
      SysBufferGetInt P h1 buffer i = some v ∧
      ∀ j, j ≠ i → SysBufferGetInt P h1 buffer j = SysBufferGetInt P h buffer j := by
  obtain ⟨h1, hs⟩ := SysBufferSetInt_some P h buffer i v hr
  refine ⟨h1, hs, ?_, ?_⟩
  · unfold SysBufferSetInt at hs
    have hl := loadBytes_storeBytes_same hs
    rw [length_encode] at hl
    unfold SysBufferGetInt
    rw [hl]
    simp only [Option.some.injEq]
    exact toI32_decode_encode P.order v hv
  · intro j hj
    unfold SysBufferSetInt at hs
    unfold SysBufferGetInt
    rw [loadBytes_storeBytes_apart hs]
    right
    rw [length_encode]
    simp only [sizeofInt]
    omega

theorem SysBufferSetInt_GetInt_roundtrip_witness :
    IntInRange [[0, 0, 0, 0, 0, 0, 0, 0, 0, 0, 0, 0]] { block := 0, off := 0 } 1 ∧
    IsInt32 (-2) ∧
    ∃ h1, SysBufferSetInt { order := .little, wcharSize := 2, charSigned := false }
        [[0, 0, 0, 0, 0, 0, 0, 0, 0, 0, 0, 0]] { block := 0, off := 0 } 1 (-2) = some h1 ∧
      SysBufferGetInt { order := .little, wcharSize := 2, charSigned := false } h1 { block := 0, off := 0 } 1
        = some (-2) ∧
      ∀ j, j ≠ 1 →
        SysBufferGetInt { order := .little, wcharSize := 2, charSigned := false } h1 { block := 0, off := 0 } j =
        SysBufferGetInt { order := .little, wcharSize := 2, charSigned := false }
          [[0, 0, 0, 0, 0, 0, 0, 0, 0, 0, 0, 0]] { block := 0, off := 0 } j :=
  ⟨(by decide), by decide,
    SysBufferSetInt_GetInt_roundtrip { order := .little, wcharSize := 2, charSigned := false }
      [[0, 0, 0, 0, 0, 0, 0, 0, 0, 0, 0, 0]] { block := 0, off := 0 } 1 (-2)
      (by decide) (by decide)⟩

theorem getElem?_encode (o : ByteOrder) (n v k : Nat) (hk : k < n) :
    (encode o n v)[k]? =
      some (toByte (v / 256 ^ (match o with
        | .little => k
        | .big => n - 1 - k))) := by
  cases o with
  | little => exact getElem?_encodeLE n v k hk
  | big =>
    simp only [encode]
    rw [List.getElem?_reverse (by rw [length_encodeLE]; exact hk), length_encodeLE]
    exact getElem?_encodeLE n v (n - 1 - k) (by omega)

theorem SysBufferGetByte_congr (h h1 : Heap) (q : Ptr) (j : Int)
    (hp : peek h1 q.block (q.off + j) = peek h q.block (q.off + j)) :
    SysBufferGetByte h1 q j = SysBufferGetByte h q j := by
  unfold SysBufferGetByte
  rw [hp]

/-- C6: an `int` write is type-punned onto the bytes at byte offset `4 * i`:
after `SysBufferSetInt buffer i v` at an in-range index, `SysBufferGetByte
buffer (4 * i + k)` for `k = 0..3` is byte `k` of the unsigned 32-bit value of
`v` in the native byte order (little-endian: `(v mod 2^32) / 256^k mod 256`;
big-endian: the same with `3 - k` for `k`), and every byte of memory outside
offsets `4 * i .. 4 * i + 3` of the buffer is unchanged. -/
theorem SysBufferSetInt_byte_layout (P : Platform) (h : Heap) (buffer : Ptr)
    (i v : Int) (hr : IntInRange h buffer i) :
    ∃ h1, SysBufferSetInt P h buffer i v = some h1 ∧
      (∀ k : Nat, k < 4 →
        SysBufferGetByte h1 buffer (4 * i + k) =
          some ((((v % 4294967296).toNat / 256 ^ (match P.order with
            | .little => k
            | .big => 3 - k) % 256 : Nat) : Int))) ∧
      (∀ (q : Ptr) (j : Int),
        (q.block ≠ buffer.block ∨ q.off + j < buffer.off + 4 * i ∨
          buffer.off + 4 * i + 4 ≤ q.off + j) →
        SysBufferGetByte h1 q j = SysBufferGetByte h q j) := by
  obtain ⟨h1, hs⟩ := SysBufferSetInt_some P h buffer i v hr
  refine ⟨h1, hs, ?_, ?_⟩
  · intro k hk
    unfold SysBufferSetInt at hs
    unfold SysBufferGetByte
    rw [peek_storeBytes _ hs]
    have c : buffer.block = buffer.block ∧
        buffer.off + (sizeofInt : Int) * i ≤ buffer.off + (4 * i + (k : Int)) ∧
        buffer.off + (4 * i + (k : Int)) <
          buffer.off + (sizeofInt : Int) * i +
            ((encode P.order sizeofInt (toU32 v)).length : Int) := by
      rw [length_encode]
      simp only [sizeofInt]
      refine ⟨trivial, ?_, ?_⟩ <;> push_cast <;> omega
    have e : (buffer.off + (4 * i + (k : Int)) - (buffer.off + (sizeofInt : Int) * i)).toNat
        = k := by
      simp only [sizeofInt]
      push_cast
      omega
    rw [if_pos c, e, getElem?_encode P.order sizeofInt (toU32 v) k (by simpa [sizeofInt] using hk)]
    cases P.order <;> simp [toByte, toU32, sizeofInt]
  · intro q j hq
    apply SysBufferGetByte_congr
    unfold SysBufferSetInt at hs
    rw [peek_storeBytes _ hs]
    have c : ¬ (q.block = buffer.block ∧
        buffer.off + (sizeofInt : Int) * i ≤ q.off + j ∧
        q.off + j < buffer.off + (sizeofInt : Int) * i +
            ((encode P.order sizeofInt (toU32 v)).length : Int)) := by
      rw [length_encode]
      simp only [sizeofInt]
      push_cast
      rintro ⟨e, h2, h3⟩
      rcases hq with hq | hq | hq
      · exact hq e
      · omega
      · omega
    rw [if_neg c]

theorem SysBufferSetInt_byte_layout_witness :
    IntInRange [[9, 9, 9, 9, 9, 9, 9, 9]] { block := 0, off := 0 } 1 ∧
    ∃ h1, SysBufferSetInt { order := .little, wcharSize := 2, charSigned := false }
        [[9, 9, 9, 9, 9, 9, 9, 9]] { block := 0, off := 0 } 1 (-2) = some h1 ∧
      (∀ k : Nat, k < 4 →
        SysBufferGetByte h1 { block := 0, off := 0 } (4 * 1 + k) =
          some ((((((-2 : Int)) % 4294967296).toNat / 256 ^ k % 256 : Nat) : Int))) ∧
      (∀ (q : Ptr) (j : Int),
        (q.block ≠ 0 ∨ q.off + j < 0 + 4 * 1 ∨ 0 + 4 * 1 + 4 ≤ q.off + j) →
        SysBufferGetByte h1 q j = SysBufferGetByte [[9, 9, 9, 9, 9, 9, 9, 9]] q j) :=
  ⟨(by decide),
    SysBufferSetInt_byte_layout { order := .little, wcharSize := 2, charSigned := false }
      [[9, 9, 9, 9, 9, 9, 9, 9]] { block := 0, off := 0 } 1 (-2)
      (by decide)⟩

/-- C2: for two distinct buffers (different blocks, so they cannot overlap),
every `n ≥ 0` and in-range source and destination ranges,
`SysBufferCopyBytes src sourceIndex dst destIndex n` succeeds; afterwards byte
`destIndex + i` of `dst` equals byte `sourceIndex + i` of `src` for every
`0 ≤ i < n`, every byte of memory outside the `n` destination bytes is
unchanged (so every other byte of `dst`), and `src` is unchanged. -/
theorem SysBufferCopyBytes_distinct_buffers (h : Heap) (src : Ptr) (sourceIndex : Int)
    (dst : Ptr) (destIndex n : Int)
    (hne : src.block ≠ dst.block) (hn : 0 ≤ n)
    (hsrc : InRange h src.block (src.off + sourceIndex) n.toNat)
    (hdst : InRange h dst.block (dst.off + destIndex) n.toNat) :
    ∃ h1, SysBufferCopyBytes h src sourceIndex dst destIndex n = some h1 ∧
      (∀ i : Int, 0 ≤ i → i < n →
        SysBufferGetByte h1 dst (destIndex + i) = SysBufferGetByte h src (sourceIndex + i)) ∧
      (∀ (q : Ptr) (j : Int),
        (q.block ≠ dst.block ∨ q.off + j < dst.off + destIndex ∨
          dst.off + destIndex + n ≤ q.off + j) →
        SysBufferGetByte h1 q j = SysBufferGetByte h q j) ∧
      (∀ j : Int, SysBufferGetByte h1 src j = SysBufferGetByte h src j) := by
  obtain ⟨h1, hl, hpeek⟩ := forLoop_copyBody h src sourceIndex dst destIndex n.toNat
    (fun j => (j : Int)) hsrc hdst
    (fun j hj => ⟨show (0 : Int) ≤ (j : Int) by omega,
      show (j : Int) < ((n.toNat : Nat) : Int) by omega⟩) (by
      intro j _
      show (j : Int) = _
      have c : ¬ (src.block = dst.block ∧
          dst.off + destIndex ≤ src.off + sourceIndex + (j : Int) ∧
          src.off + sourceIndex + (j : Int) < dst.off + destIndex + (j : Int)) := by
        rintro ⟨q, -⟩; exact hne q
      rw [if_neg c])
  have hnn : ((n.toNat : Nat) : Int) = n := Int.toNat_of_nonneg hn
  refine ⟨h1, by simp only [SysBufferCopyBytes, hl], ?_, ?_, ?_⟩
  · intro i hi0 hin
    unfold SysBufferGetByte
    rw [hpeek]
    have c : dst.block = dst.block ∧ dst.off + destIndex ≤ dst.off + (destIndex + i) ∧
        dst.off + (destIndex + i) < dst.off + destIndex + ((n.toNat : Nat) : Int) :=
      ⟨rfl, by omega, by omega⟩
    have e : (((dst.off + (destIndex + i) - (dst.off + destIndex)).toNat : Nat) : Int) = i := by
      omega
    have e2 : src.off + sourceIndex + i = src.off + (sourceIndex + i) := by omega
    rw [if_pos c]
    simp only [e, e2]
  · intro q j hq
    apply SysBufferGetByte_congr
    rw [hpeek]
    have c : ¬ (q.block = dst.block ∧ dst.off + destIndex ≤ q.off + j ∧
        q.off + j < dst.off + destIndex + ((n.toNat : Nat) : Int)) := by
      rintro ⟨q1, q2, q3⟩
      rcases hq with hq | hq | hq
      · exact hq q1
      · omega
      · omega
    rw [if_neg c]
  · intro j
    apply SysBufferGetByte_congr
    rw [hpeek]
    have c : ¬ (src.block = dst.block ∧ dst.off + destIndex ≤ src.off + j ∧
        src.off + j < dst.off + destIndex + ((n.toNat : Nat) : Int)) := by
      rintro ⟨q1, -⟩; exact hne q1
    rw [if_neg c]

theorem SysBufferCopyBytes_distinct_buffers_witness :
    ({ block := 0, off := 0 } : Ptr).block ≠ ({ block := 1, off := 0 } : Ptr).block ∧
    (0 : Int) ≤ 2 ∧
    InRange [[1, 2, 3, 4], [5, 6, 7, 8]] 0 (0 + 1) (2 : Int).toNat ∧
    InRange [[1, 2, 3, 4], [5, 6, 7, 8]] 1 (0 + 2) (2 : Int).toNat ∧
    ∃ h1, SysBufferCopyBytes [[1, 2, 3, 4], [5, 6, 7, 8]] { block := 0, off := 0 } 1
        { block := 1, off := 0 } 2 2 = some h1 ∧
      (∀ i : Int, 0 ≤ i → i < 2 →
        SysBufferGetByte h1 { block := 1, off := 0 } (2 + i) =
          SysBufferGetByte [[1, 2, 3, 4], [5, 6, 7, 8]] { block := 0, off := 0 } (1 + i)) ∧
      (∀ (q : Ptr) (j : Int),
        (q.block ≠ 1 ∨ q.off + j < 0 + 2 ∨ 0 + 2 + 2 ≤ q.off + j) →
        SysBufferGetByte h1 q j = SysBufferGetByte [[1, 2, 3, 4], [5, 6, 7, 8]] q j) ∧
      (∀ j : Int, SysBufferGetByte h1 { block := 0, off := 0 } j =
        SysBufferGetByte [[1, 2, 3, 4], [5, 6, 7, 8]] { block := 0, off := 0 } j) :=
  ⟨by decide, by decide, (by decide), (by decide),
    SysBufferCopyBytes_distinct_buffers [[1, 2, 3, 4], [5, 6, 7, 8]] { block := 0, off := 0 } 1
      { block := 1, off := 0 } 2 2 (by decide) (by decide)
      (by decide) (by decide)⟩

/-- C3: when source and destination are the same buffer and
`sourceIndex < destIndex < sourceIndex + n` (all offsets in range),
`SysBufferCopyBytes` succeeds and gives the sequential forward copy: with
`d = destIndex - sourceIndex`, the byte at `destIndex + i` afterwards is the
original byte at `sourceIndex + i mod d` for every `0 ≤ i < n`.  This is not
`memmove`: copying 3 bytes from offset 0 to offset 1 of the bytes `1 2 3 4 5`
gives `1 1 1 1 5`, where a `memmove` of the original bytes gives `1 1 2 3 5`. -/
theorem SysBufferCopyBytes_overlap_forward (h : Heap) (p : Ptr)
    (sourceIndex destIndex n : Int)
    (hlt : sourceIndex < destIndex) (hov : destIndex < sourceIndex + n)
    (hsrc : InRange h p.block (p.off + sourceIndex) n.toNat)
    (hdst : InRange h p.block (p.off + destIndex) n.toNat) :
    (∃ h1, SysBufferCopyBytes h p sourceIndex p destIndex n = some h1 ∧
      ∀ i : Int, 0 ≤ i → i < n →
        SysBufferGetByte h1 p (destIndex + i) =
          SysBufferGetByte h p (sourceIndex + i % (destIndex - sourceIndex))) ∧
    SysBufferCopyBytes [[1, 2, 3, 4, 5]] { block := 0, off := 0 } 0 { block := 0, off := 0 } 1 3
      = some [[1, 1, 1, 1, 5]] ∧
    memmoveBytes [[1, 2, 3, 4, 5]] { block := 0, off := 0 } 0 { block := 0, off := 0 } 1 3
      = some [[1, 1, 2, 3, 5]] ∧
    SysBufferCopyBytes [[1, 2, 3, 4, 5]] { block := 0, off := 0 } 0 { block := 0, off := 0 } 1 3
      ≠ memmoveBytes [[1, 2, 3, 4, 5]] { block := 0, off := 0 } 0 { block := 0, off := 0 } 1 3 := by
  refine ⟨?_, by decide, by decide, by decide⟩
  have hd : 0 < destIndex - sourceIndex := by omega
  have hn : 0 ≤ n := by omega
  have hnn : ((n.toNat : Nat) : Int) = n := Int.toNat_of_nonneg hn
  obtain ⟨h1, hl, hpeek⟩ := forLoop_copyBody h p sourceIndex p destIndex n.toNat
    (fun j => (j : Int) % (destIndex - sourceIndex)) hsrc hdst
    (fun j hj => ⟨Int.emod_nonneg _ (by omega), by
      show (j : Int) % (destIndex - sourceIndex) < ((n.toNat : Nat) : Int)
      by_cases hjd : (j : Int) < destIndex - sourceIndex
      · rw [Int.emod_eq_of_lt (by omega) hjd]
        omega
      · have := Int.emod_lt_of_pos (j : Int) hd
        omega⟩) (by
      intro j _
      show (j : Int) % (destIndex - sourceIndex) = _
      by_cases c : p.block = p.block ∧
          p.off + destIndex ≤ p.off + sourceIndex + (j : Int) ∧
          p.off + sourceIndex + (j : Int) < p.off + destIndex + (j : Int)
      · rw [if_pos c]
        have e : (((p.off + sourceIndex + (j : Int) - (p.off + destIndex)).toNat : Nat) : Int)
            = (j : Int) - (destIndex - sourceIndex) := by omega
        simp only [e]
        rw [Int.sub_emod, Int.emod_self, sub_zero, Int.emod_emod]
      · rw [if_neg c]
        apply Int.emod_eq_of_lt (by omega)
        by_contra hge
        exact c ⟨rfl, by omega, by omega⟩)
  refine ⟨h1, by simp only [SysBufferCopyBytes, hl], ?_⟩
  intro i hi0 hin
  unfold SysBufferGetByte
  rw [hpeek]
  have c : p.block = p.block ∧ p.off + destIndex ≤ p.off + (destIndex + i) ∧
      p.off + (destIndex + i) < p.off + destIndex + ((n.toNat : Nat) : Int) :=
    ⟨rfl, by omega, by omega⟩
  have e : (((p.off + (destIndex + i) - (p.off + destIndex)).toNat : Nat) : Int) = i := by
    omega
  rw [if_pos c]
  simp only [e]
  have e2 : p.off + sourceIndex + i % (destIndex - sourceIndex) =
      p.off + (sourceIndex + i % (destIndex - sourceIndex)) := by
    rw [add_assoc]
  rw [e2]

theorem SysBufferCopyBytes_overlap_forward_witness :
    (0 : Int) < 2 ∧ (2 : Int) < 0 + 5 ∧
    InRange [[1, 2, 3, 4, 5, 6, 7, 8]] 0 (0 + 0) (5 : Int).toNat ∧
    InRange [[1, 2, 3, 4, 5, 6, 7, 8]] 0 (0 + 2) (5 : Int).toNat ∧
    ∃ h1, SysBufferCopyBytes [[1, 2, 3, 4, 5, 6, 7, 8]] { block := 0, off := 0 } 0
        { block := 0, off := 0 } 2 5 = some h1 ∧
      ∀ i : Int, 0 ≤ i → i < 5 →
        SysBufferGetByte h1 { block := 0, off := 0 } (2 + i) =
          SysBufferGetByte [[1, 2, 3, 4, 5, 6, 7, 8]] { block := 0, off := 0 }
            (0 + i % (2 - 0)) :=
  ⟨by decide, by decide, (by decide), (by decide),
    (SysBufferCopyBytes_overlap_forward [[1, 2, 3, 4, 5, 6, 7, 8]] { block := 0, off := 0 }
      0 2 5 (by decide) (by decide)
      (by decide) (by decide)).1⟩

/-! ## Event records -/

theorem loadIntField_of_holds (P : Platform) (h : Heap) (p : Ptr) (a v : Int)
    (hv : IsInt32 v) (hh : FieldHolds P h p a v) : loadIntField P h p a = some v := by
  unfold FieldHolds at hh
  unfold loadIntField
  rw [hh]
  simp only [Option.some.injEq]
  exact toI32_decode_encode P.order v hv

/-- C7: for every event record whose pointer payload holds `x`, `y`, `touchId`
and `state` and whose type field holds any discriminant `d`, `SysEventGetX`,
`SysEventGetY`, `SysEventGetTouchId` and `SysEventGetState` return exactly
`(x, y, touchId, state)` and `SysEventGetType` returns `d`.  Nothing relates `d`
to the payload: the accessors do not look at the type field, and their results
are the same whatever value it holds. -/
theorem SysEvent_pointer_accessors (L : MAEventLayout) (P : Platform) (h : Heap)
    (event : Ptr) (d x y touchId state : Int)
    (hd : IsInt32 d) (hx : IsInt32 x) (hy : IsInt32 y) (ht : IsInt32 touchId)
    (hs : IsInt32 state)
    (htype : FieldHolds P h event L.typeOff d)
    (hpx : FieldHolds P h event L.pointXOff x)
    (hpy : FieldHolds P h event L.pointYOff y)
    (hpt : FieldHolds P h event L.touchIdOff touchId)
    (hps : FieldHolds P h event L.stateOff state) :
    SysEventGetType L P h event = some d ∧
    SysEventGetX L P h event = some x ∧
    SysEventGetY L P h event = some y ∧
    SysEventGetTouchId L P h event = some touchId ∧
    SysEventGetState L P h event = some state :=
  ⟨loadIntField_of_holds P h event _ d hd htype,
    loadIntField_of_holds P h event _ x hx hpx,
    loadIntField_of_holds P h event _ y hy hpy,
    loadIntField_of_holds P h event _ touchId ht hpt,
    loadIntField_of_holds P h event _ state hs hps⟩

theorem SysEvent_pointer_accessors_witness :
    FieldHolds examplePlatform exampleEventHeap { block := 0, off := 0 } 0 8 ∧
    FieldHolds examplePlatform exampleEventHeap { block := 0, off := 0 } 4 120 ∧
    FieldHolds examplePlatform exampleEventHeap { block := 0, off := 0 } 8 340 ∧
    FieldHolds examplePlatform exampleEventHeap { block := 0, off := 0 } 12 2 ∧
    FieldHolds examplePlatform exampleEventHeap { block := 0, off := 0 } 16 1 ∧
    SysEventGetType exampleLayout examplePlatform exampleEventHeap { block := 0, off := 0 }
      = some 8 ∧
    SysEventGetX exampleLayout examplePlatform exampleEventHeap { block := 0, off := 0 }
      = some 120 ∧
    SysEventGetY exampleLayout examplePlatform exampleEventHeap { block := 0, off := 0 }
      = some 340 ∧
    SysEventGetTouchId exampleLayout examplePlatform exampleEventHeap { block := 0, off := 0 }
      = some 2 ∧
    SysEventGetState exampleLayout examplePlatform exampleEventHeap { block := 0, off := 0 }
      = some 1 :=
  ⟨by decide, by decide, by decide, by decide, by decide,
    SysEvent_pointer_accessors exampleLayout examplePlatform exampleEventHeap
      { block := 0, off := 0 } 8 120 340 2 1
      (by decide) (by decide) (by decide) (by decide) (by decide)
      (by decide) (by decide) (by decide) (by decide) (by decide)⟩

/-! ## Allocation lemmas -/

theorem getElem?_append_singleton_ne (h : Heap) (blk : List Byte) (b : Nat)
    (hb : b ≠ h.length) : (h ++ [blk])[b]? = h[b]? := by
  by_cases hlt : b < h.length
  · exact List.getElem?_append_left hlt
  · rw [List.getElem?_eq_none (by simp; omega), List.getElem?_eq_none (by omega)]

theorem peek_append_old (h : Heap) (blk : List Byte) (b : Nat) (a : Int)
    (hb : b ≠ h.length) : peek (h ++ [blk]) b a = peek h b a := by
  unfold peek
  rw [getElem?_append_singleton_ne h blk b hb]

theorem blockSize_append_old (h : Heap) (blk : List Byte) (b : Nat)
    (hb : b ≠ h.length) : blockSize (h ++ [blk]) b = blockSize h b := by
  unfold blockSize
  rw [getElem?_append_singleton_ne h blk b hb]

theorem blockSize_append_new (h : Heap) (blk : List Byte) :
    blockSize (h ++ [blk]) h.length = some blk.length := by
  unfold blockSize
  simp

theorem block_lt_of_peek {h : Heap} {b : Nat} {a : Int} {x : Byte}
    (hp : peek h b a = some x) : b < h.length ∧ 0 ≤ a := by
  obtain ⟨blk, hb, ha, -⟩ := (peek_eq_some_iff h b a x).mp hp
  obtain ⟨hlt, -⟩ := List.getElem?_eq_some.mp hb
  exact ⟨hlt, ha⟩

theorem inRange_of_loadBytes {h : Heap} {b : Nat} {a : Int} {n : Nat} {l : List Byte}
    (hn : 0 < n) (hl : loadBytes h b a n = some l) : InRange h b a n := by
  obtain ⟨hlen, hk⟩ := (loadBytes_eq_some_iff n h b a l).mp hl
  have hlast := hk (n - 1) (by omega)
  have h0 := hk 0 (by omega)
  rw [List.getElem?_eq_getElem (by omega)] at hlast h0
  obtain ⟨sz, hsz, -, hle⟩ := (inRange_one_iff h b (a + ((n - 1 : Nat) : Int))).mpr ⟨_, hlast⟩
  obtain ⟨-, ha⟩ := block_lt_of_peek h0
  refine ⟨sz, hsz, by simpa using ha, ?_⟩
  push_cast at hle
  omega

/-! ## String scanning -/

theorem scanZero_found (read : Nat → Option Nat) (n : Nat) :
    ∀ (fuel i0 : Nat), (∀ i, i < n → ∃ u, read (i0 + i) = some u ∧ u ≠ 0) →
      read (i0 + n) = some 0 → n < fuel → scanZero read fuel i0 = some (i0 + n) := by
  induction n with
  | zero =>
    intro fuel i0 _ hz hf
    cases fuel with
    | zero => omega
    | succ fuel =>
      simp only [Nat.add_zero] at hz
      simp [scanZero, hz]
  | succ n ih =>
    intro fuel i0 hnz hz hf
    cases fuel with
    | zero => omega
    | succ fuel =>
      obtain ⟨u, hu, hu0⟩ := hnz 0 (by omega)
      simp only [Nat.add_zero] at hu
      simp only [scanZero, hu, hu0, if_false]
      rw [ih fuel (i0 + 1) (by
        intro i hi
        have := hnz (i + 1) (by omega)
        rwa [show i0 + 1 + i = i0 + (i + 1) by omega]) (by
        rwa [show i0 + 1 + n = i0 + (n + 1) by omega]) (by omega)]
      congr 1
      omega

theorem strlen_of_isCStr {h : Heap} {p : Ptr} {s : List Byte} (hs : IsCStr h p s) :
    strlen h p = some s.length := by
  obtain ⟨hbytes, hnz, hz⟩ := hs
  obtain ⟨sz, hsz, h0, hle⟩ := (inRange_one_iff h p.block (p.off + s.length)).mpr ⟨_, hz⟩
  have hoff : 0 ≤ p.off := by
    cases s with
    | nil => simpa using h0
    | cons x xs =>
      have := hbytes 0 (by simp)
      simp only [Nat.cast_zero, add_zero, List.getElem?_cons_zero] at this
      exact (block_lt_of_peek this).2
  unfold strlen
  rw [hsz]
  simp only [Option.getD_some]
  have := scanZero_found (fun i => readByte h p i) s.length (sz + 1) 0 (by
    intro i hi
    have hb := hbytes i hi
    rw [List.getElem?_eq_getElem hi] at hb
    refine ⟨(s[i]).val, ?_, ?_⟩
    · simp only [readByte, Nat.zero_add, hb]
    · intro e
      exact hnz s[i] (List.getElem_mem hi) (Fin.ext e)) (by
    simp only [readByte, Nat.zero_add, hz]
    rfl) (by push_cast at hle; omega)
  simpa using this

theorem readWChar_zero_size (P : Platform) (h : Heap) (p : Ptr) (i : Int)
    (hw : P.wcharSize = 0) : readWChar P h p i = some 0 := by
  unfold readWChar
  rw [hw]
  cases ho : P.order <;> simp [loadBytes, decode, decodeLE]

theorem inRange_of_readWChar {P : Platform} {h : Heap} {p : Ptr} {i : Int} {u : Nat}
    (hw : 0 < P.wcharSize) (hr : readWChar P h p i = some u) :
    InRange h p.block (p.off + P.wcharSize * i) P.wcharSize := by
  unfold readWChar at hr
  cases hl : loadBytes h p.block (p.off + P.wcharSize * i) P.wcharSize with
  | none => simp [hl] at hr
  | some l => exact inRange_of_loadBytes hw hl

theorem wcslen_of_isWStr {P : Platform} {h : Heap} {p : Ptr} {us : List Nat}
    (hs : IsWStr P h p us) : wcslen P h p = some us.length := by
  obtain ⟨hunits, hnz, hz⟩ := hs
  have hfuel : us.length < (blockSize h p.block).getD 0 + 1 := by
    cases us with
    | nil => simp
    | cons u0 rest =>
      have hu0 := hunits 0 (by simp)
      simp only [Nat.cast_zero, List.getElem?_cons_zero] at hu0
      have hw : 0 < P.wcharSize := by
        by_contra hw0
        have := readWChar_zero_size P h p 0 (by omega)
        rw [hu0] at this
        exact hnz u0 (by simp) (by simpa using this)
      obtain ⟨sz0, hsz0, hoff, -⟩ := inRange_of_readWChar hw hu0
      obtain ⟨sz, hsz, -, hle⟩ := inRange_of_readWChar hw hz
      rw [hsz]
      simp only [Option.getD_some]
      have hmul : (P.wcharSize : Int) * ((u0 :: rest).length : Nat) ≥ ((u0 :: rest).length : Nat) := by
        have h1 : (1 : Int) ≤ P.wcharSize := by omega
        have h2 : (0 : Int) ≤ (((u0 :: rest).length : Nat) : Int) := by omega
        nlinarith
      simp only [mul_zero, add_zero] at hoff
      omega
  unfold wcslen
  have := scanZero_found (fun i => readWChar P h p i) us.length
    ((blockSize h p.block).getD 0 + 1) 0 (by
    intro i hi
    have hb := hunits i hi
    rw [List.getElem?_eq_getElem hi] at hb
    refine ⟨us[i], ?_, hnz _ (List.getElem_mem hi)⟩
    simp only [Nat.zero_add, hb]) (by
    simp only [Nat.zero_add, hz]) hfuel
  simpa using this

/-! ## Wide units -/

theorem writeWChar_some (P : Platform) (h : Heap) (w : Ptr) (i : Int) (v : Nat)
    (hr : InRange h w.block (w.off + P.wcharSize * i) P.wcharSize) :
    ∃ h1, writeWChar P h w i v = some h1 := by
  unfold writeWChar
  apply storeBytes_some_of_inRange
  rw [length_encode]
  exact hr

theorem readWChar_writeWChar_same {P : Platform} {h h1 : Heap} {w : Ptr} {i : Int} {v : Nat}
    (hs : writeWChar P h w i v = some h1) :
    readWChar P h1 w i = some (v % 256 ^ P.wcharSize) := by
  unfold writeWChar at hs
  have hl := loadBytes_storeBytes_same hs
  rw [length_encode] at hl
  unfold readWChar
  rw [hl]
  simp only [decode_encode]

theorem slot_apart (ws : Nat) (i j : Int) (hij : j ≠ i) :
    (ws : Int) * j + ws ≤ ws * i ∨ (ws : Int) * i + ws ≤ ws * j := by
  have hws : (0 : Int) ≤ ws := by omega
  rcases lt_or_gt_of_ne hij with hlt | hgt
  · left
    have : (ws : Int) * (j + 1) ≤ ws * i := Int.mul_le_mul_of_nonneg_left (by omega) hws
    rw [mul_add, mul_one] at this
    exact this
  · right
    have : (ws : Int) * (i + 1) ≤ ws * j := Int.mul_le_mul_of_nonneg_left (by omega) hws
    rw [mul_add, mul_one] at this
    exact this

theorem readWChar_writeWChar_ne {P : Platform} {h h1 : Heap} {w : Ptr} {i : Int} {v : Nat}
    (hs : writeWChar P h w i v = some h1) (j : Int) (hij : j ≠ i) :
    readWChar P h1 w j = readWChar P h w j := by
  unfold writeWChar at hs
  unfold readWChar
  rw [loadBytes_storeBytes_apart hs]
  right
  rw [length_encode]
  rcases slot_apart P.wcharSize i j hij with hc | hc
  · left; omega
  · right; omega

theorem peek_writeWChar_other {P : Platform} {h h1 : Heap} {w : Ptr} {i : Int} {v : Nat}
    (hs : writeWChar P h w i v = some h1) (b : Nat) (a : Int) (hb : b ≠ w.block) :
    peek h1 b a = peek h b a := by
  unfold writeWChar at hs
  rw [peek_storeBytes _ hs]
  have c : ¬ (b = w.block ∧ w.off + (P.wcharSize : Int) * i ≤ a ∧
      a < w.off + (P.wcharSize : Int) * i +
        ((encode P.order P.wcharSize v).length : Int)) := by
    rintro ⟨q, -⟩; exact hb q
  rw [if_neg c]

theorem blockSize_writeWChar {P : Platform} {h h1 : Heap} {w : Ptr} {i : Int} {v : Nat}
    (hs : writeWChar P h w i v = some h1) (b : Nat) : blockSize h1 b = blockSize h b :=
  blockSize_storeBytes _ hs b

theorem readWChar_congr_block (P : Platform) (h h1 : Heap) (w : Ptr) (i : Int)
    (hp : ∀ a, peek h1 w.block a = peek h w.block a) :
    readWChar P h1 w i = readWChar P h w i := by
  unfold readWChar
  rw [loadBytes_congr _ h h1 _ _ (fun k _ => hp _)]

/-! ## Sizes of the string buffers -/

theorem toI32_of_lt (n : Nat) (hn : n < 2147483648) : toI32 n = (n : Int) := by
  unfold toI32
  have : n % 4294967296 = n := Nat.mod_eq_of_lt (by omega)
  rw [this, if_pos hn]

theorem toU32_natCast (n : Nat) (hn : n < 4294967296) : toU32 (n : Int) = n := by
  unfold toU32
  omega

theorem alloc_size (n w : Nat) (hw : 0 < w) (hfit : (n + 1) * w < 2147483648) :
    (toI32 n).toNat = n ∧ toU32 (toI32 (toU32 (1 + toI32 n) * w)) = (n + 1) * w := by
  have hn : n + 1 ≤ (n + 1) * w := Nat.le_mul_of_pos_right _ hw
  have h1 : toI32 n = (n : Int) := toI32_of_lt n (by omega)
  have h2 : toU32 (1 + (n : Int)) = n + 1 := by
    have := toU32_natCast (n + 1) (by omega)
    rw [← this]
    congr 1
    push_cast
    omega
  rw [h1, h2, toI32_of_lt _ hfit, toU32_natCast _ (by omega)]
  exact ⟨by simp, rfl⟩

/-! ## Narrow to wide -/

theorem byte_mod_pow (x : Byte) (w : Nat) (hw : 0 < w) : x.val % 256 ^ w = x.val := by
  apply Nat.mod_eq_of_lt
  exact lt_of_lt_of_le x.isLt (Nat.le_self_pow (by omega) 256)

theorem widenChar_spec (P : Platform) (x : Byte) (hw : 0 < P.wcharSize) :
    widenChar P x % 256 = x.val ∧ widenChar P x < 256 ^ P.wcharSize ∧
    ((P.charSigned = false ∨ x.val < 128) → widenChar P x = x.val) ∧
    (P.charSigned = true → 128 ≤ x.val →
      widenChar P x = 256 ^ P.wcharSize - 256 + x.val) := by
  obtain ⟨K, hK0, hK⟩ : ∃ K, 0 < K ∧ 256 ^ P.wcharSize = 256 * K := by
    refine ⟨256 ^ (P.wcharSize - 1), by positivity, ?_⟩
    rw [← pow_succ', Nat.sub_add_cancel hw]
  have hx := x.isLt
  unfold widenChar toWChar charValue
  rw [hK]
  by_cases hc : P.charSigned = true ∧ 128 ≤ x.val
  · rw [if_pos hc]
    have e : ((x.val : Int) - 256) % ((256 * K : Nat) : Int)
        = (x.val : Int) - 256 + ((256 * K : Nat) : Int) := by
      rw [← Int.add_emod_self]
      apply Int.emod_eq_of_lt <;> push_cast <;> omega
    rw [e]
    push_cast
    refine ⟨by omega, by omega, ?_, ?_⟩
    · rintro (h1 | h1)
      · rw [hc.1] at h1
        cases h1
      · omega
    · intro _ _
      omega
  · rw [if_neg hc]
    have e : (x.val : Int) % ((256 * K : Nat) : Int) = (x.val : Int) := by
      apply Int.emod_eq_of_lt <;> push_cast <;> omega
    rw [e]
    refine ⟨by omega, by omega, ?_, ?_⟩
    · intro _
      omega
    · intro h1 h2
      exact absurd ⟨h1, h2⟩ hc

theorem slot_in_block (w j n : Nat) (hj : j ≤ n) :
    (0 : Int) ≤ 0 + (w : Int) * (j : Int) ∧
    (0 : Int) + (w : Int) * (j : Int) + (w : Int) ≤ (((n + 1) * w : Nat) : Int) := by
  have h1 : (0 : Int) ≤ (w : Int) * (j : Int) := by positivity
  have h2 : (w : Int) * ((j : Int) + 1) ≤ (w : Int) * ((n : Int) + 1) :=
    Int.mul_le_mul_of_nonneg_left (by omega) (by omega)
  refine ⟨by omega, ?_⟩
  push_cast
  rw [mul_add, mul_one] at h2
  rw [mul_comm ((n : Int) + 1) (w : Int)]
  omega

theorem charToWide_core (P : Platform) (h : Heap) (str : Ptr) (s : List Byte)
    (f : Nat → Byte) (hw : 0 < P.wcharSize) (hs : IsCStr h str s)
    (hfit : (s.length + 1) * P.wcharSize < 2147483648) :
    ∃ h1, SysStringCharToWideChar P h (some str) (some f)
        = some (some { block := h.length, off := 0 }, h1) ∧
      (∀ b a, b ≠ h.length → peek h1 b a = peek h b a) ∧
      (∀ b, b ≠ h.length → blockSize h1 b = blockSize h b) ∧
      blockSize h1 h.length = some ((s.length + 1) * P.wcharSize) ∧
      (∀ i : Nat, i < s.length →
        readWChar P h1 { block := h.length, off := 0 } i = (s[i]?).map (widenChar P)) ∧
      readWChar P h1 { block := h.length, off := 0 } s.length = some 0 := by
  obtain ⟨hlen, hsize⟩ := alloc_size s.length P.wcharSize hw hfit
  have hstr := strlen_of_isCStr hs
  obtain ⟨hbytes, hnz, hz⟩ := hs
  have hsb : str.block ≠ h.length := by
    have := (block_lt_of_peek hz).1
    omega
  have hbs0 : blockSize (h ++ [(List.range ((s.length + 1) * P.wcharSize)).map f]) h.length
      = some ((s.length + 1) * P.wcharSize) := by
    rw [blockSize_append_new]
    simp
  obtain ⟨h2, hloop, hfr2, hbsz2, hun2⟩ := forLoop_invariant
    (charToWideBody P str { block := h.length, off := 0 }) s.length
    (fun j hj => (∀ b a, b ≠ h.length → peek hj b a = peek h b a) ∧
      (∀ b, blockSize hj b =
        blockSize (h ++ [(List.range ((s.length + 1) * P.wcharSize)).map f]) b) ∧
      (∀ i : Nat, i < j →
        readWChar P hj { block := h.length, off := 0 } i = (s[i]?).map (widenChar P)))
    0 (h ++ [(List.range ((s.length + 1) * P.wcharSize)).map f])
    ⟨fun b a hb => peek_append_old h _ b a hb, fun b => rfl, fun i hi => by omega⟩
    (by
      intro j hj hjn hinv
      obtain ⟨hfr, hbsz, hun⟩ := hinv
      rw [zero_add]
      have hb := hbytes j hjn
      rw [List.getElem?_eq_getElem hjn] at hb
      have hrd : readChar P hj str (j : Int) = some (charValue P s[j]) := by
        unfold readChar
        rw [hfr _ _ hsb, hb]
      have hrange : InRange hj h.length (0 + (P.wcharSize : Int) * (j : Int)) P.wcharSize :=
        ⟨(s.length + 1) * P.wcharSize, by rw [hbsz]; exact hbs0,
          (slot_in_block P.wcharSize j s.length (by omega)).1,
          (slot_in_block P.wcharSize j s.length (by omega)).2⟩
      obtain ⟨hj1, hwr⟩ := writeWChar_some P hj { block := h.length, off := 0 } (j : Int)
        (toWChar P (charValue P s[j])) hrange
      refine ⟨hj1, by simp only [charToWideBody, hrd, hwr], ?_, ?_, ?_⟩
      · intro b a hb1
        rw [peek_writeWChar_other hwr b a hb1, hfr b a hb1]
      · intro b
        rw [blockSize_writeWChar hwr, hbsz]
      · intro i hi
        by_cases hij : i = j
        · subst hij
          rw [readWChar_writeWChar_same hwr, List.getElem?_eq_getElem hjn]
          simp only [Option.map_some', Option.some.injEq]
          exact Nat.mod_eq_of_lt (widenChar_spec P s[i] hw).2.1
        · rw [readWChar_writeWChar_ne hwr i (by omega), hun i (by omega)])
  rw [zero_add] at hloop
  have hrange : InRange h2 h.length (0 + (P.wcharSize : Int) * (s.length : Int)) P.wcharSize :=
    ⟨(s.length + 1) * P.wcharSize, by rw [hbsz2]; exact hbs0,
      (slot_in_block P.wcharSize s.length s.length (le_refl _)).1,
      (slot_in_block P.wcharSize s.length s.length (le_refl _)).2⟩
  obtain ⟨h3, hterm⟩ := writeWChar_some P h2 { block := h.length, off := 0 } (s.length : Int)
    0 hrange
  refine ⟨h3, ?_, ?_, ?_, ?_, ?_, ?_⟩
  · simp only [SysStringCharToWideChar, hstr, hlen, hsize, SysAlloc, malloc, hloop, hterm]
  · intro b a hb
    rw [peek_writeWChar_other hterm b a hb, hfr2 b a hb]
  · intro b hb
    rw [blockSize_writeWChar hterm, hbsz2, blockSize_append_old h _ b hb]
  · rw [blockSize_writeWChar hterm, hbsz2, hbs0]
  · intro i hi
    rw [readWChar_writeWChar_ne hterm i (by omega), hun2 i hi]
  · rw [readWChar_writeWChar_same hterm]
    simp

theorem charToWide_fail (P : Platform) (h : Heap) (str : Ptr) (s : List Byte)
    (hs : IsCStr h str s) :
    SysStringCharToWideChar P h (some str) none = some (none, h) := by
  have hstr := strlen_of_isCStr hs
  simp only [SysStringCharToWideChar, hstr, SysAlloc, malloc]

/-! ## Wide to narrow -/

theorem wideToChar_core (P : Platform) (h : Heap) (wstr : Ptr) (us : List Nat)
    (f : Nat → Byte) (hs : IsWStr P h wstr us) (hfit : us.length + 1 < 2147483648) :
    ∃ h1, SysStringWideCharToChar P h (some wstr) (some f)
        = some (some { block := h.length, off := 0 }, h1) ∧
      (∀ b a, b ≠ h.length → peek h1 b a = peek h b a) ∧
      (∀ b, b ≠ h.length → blockSize h1 b = blockSize h b) ∧
      blockSize h1 h.length = some (us.length + 1) ∧
      (∀ i : Nat, i < us.length → peek h1 h.length i = (us[i]?).map toByte) ∧
      peek h1 h.length us.length = some 0 := by
  obtain ⟨hlen, hsize0⟩ := alloc_size us.length 1 (by omega) (by omega)
  have hsize : toU32 (toI32 (toU32 (1 + toI32 us.length) * 1)) = us.length + 1 := by
    rw [hsize0, Nat.mul_one]
  have hstr := wcslen_of_isWStr hs
  obtain ⟨hunits, hnz, hz⟩ := hs
  have hwb : ∀ j : Nat, j < us.length → wstr.block ≠ h.length := by
    intro j hj
    have hu := hunits j hj
    rw [List.getElem?_eq_getElem hj] at hu
    have hw : 0 < P.wcharSize := by
      by_contra hw0
      have := readWChar_zero_size P h wstr j (by omega)
      rw [hu] at this
      exact hnz _ (List.getElem_mem hj) (by simpa using this)
    obtain ⟨sz, hsz, -, -⟩ := inRange_of_readWChar hw hu
    unfold blockSize at hsz
    intro e
    rw [e, List.getElem?_eq_none (le_refl _)] at hsz
    simp at hsz
  have hbs0 : blockSize (h ++ [(List.range (us.length + 1)).map f]) h.length
      = some (us.length + 1) := by
    rw [blockSize_append_new]
    simp
  obtain ⟨h2, hloop, hfr2, hbsz2, hun2⟩ := forLoop_invariant
    (wideToCharBody P wstr { block := h.length, off := 0 }) us.length
    (fun j hj => (∀ b a, b ≠ h.length → peek hj b a = peek h b a) ∧
      (∀ b, blockSize hj b = blockSize (h ++ [(List.range (us.length + 1)).map f]) b) ∧
      (∀ i : Nat, i < j → peek hj h.length i = (us[i]?).map toByte))
    0 (h ++ [(List.range (us.length + 1)).map f])
    ⟨fun b a hb => peek_append_old h _ b a hb, fun b => rfl, fun i hi => by omega⟩
    (by
      intro j hj hjn hinv
      obtain ⟨hfr, hbsz, hun⟩ := hinv
      rw [zero_add]
      have hu := hunits j hjn
      rw [List.getElem?_eq_getElem hjn] at hu
      have hrd : readWChar P hj wstr (j : Int) = some us[j] := by
        rw [readWChar_congr_block P h hj wstr j (fun a => hfr _ a (hwb j hjn)), hu]
      obtain ⟨hj1, hwr⟩ := poke_some_of_inRange hj h.length (0 + (j : Int)) (toByte us[j])
        ⟨us.length + 1, by rw [hbsz]; exact hbs0, by omega, by push_cast; omega⟩
      refine ⟨hj1, by simp only [wideToCharBody, hrd, hwr], ?_, ?_, ?_⟩
      · intro b a hb1
        rw [peek_poke hwr b a, if_neg (by rintro ⟨q, -⟩; exact hb1 q), hfr b a hb1]
      · intro b
        rw [blockSize_poke hwr, hbsz]
      · intro i hi
        rw [peek_poke hwr]
        by_cases hij : i = j
        · subst hij
          rw [if_pos ⟨rfl, by omega⟩, List.getElem?_eq_getElem hjn]
          rfl
        · rw [if_neg (by rintro ⟨-, q⟩; omega), hun i (by omega)])
  rw [zero_add] at hloop
  obtain ⟨h3, hterm⟩ := poke_some_of_inRange h2 h.length (0 + (us.length : Int)) 0
    ⟨us.length + 1, by rw [hbsz2]; exact hbs0, by omega, by push_cast; omega⟩
  refine ⟨h3, ?_, ?_, ?_, ?_, ?_, ?_⟩
  · simp only [SysStringWideCharToChar, hstr, hlen, hsize, SysAlloc, malloc, hloop, hterm]
  · intro b a hb
    rw [peek_poke hterm b a, if_neg (by rintro ⟨q, -⟩; exact hb q), hfr2 b a hb]
  · intro b hb
    rw [blockSize_poke hterm, hbsz2, blockSize_append_old h _ b hb]
  · rw [blockSize_poke hterm, hbsz2, hbs0]
  · intro i hi
    rw [peek_poke hterm, if_neg (by rintro ⟨-, q⟩; omega), hun2 i hi]
  · rw [peek_poke hterm, if_pos ⟨rfl, by omega⟩]

theorem wideToChar_fail (P : Platform) (h : Heap) (wstr : Ptr) (us : List Nat)
    (hs : IsWStr P h wstr us) :
    SysStringWideCharToChar P h (some wstr) none = some (none, h) := by
  have hstr := wcslen_of_isWStr hs
  simp only [SysStringWideCharToChar, hstr, SysAlloc, malloc]

/-! ## String conversion -/

theorem isWStr_of_charToWide {P : Platform} {h1 : Heap} {q : Ptr} {s : List Byte}
    (hw : 0 < P.wcharSize) (hnz : ∀ x, x ∈ s → x ≠ 0)
    (hun : ∀ i : Nat, i < s.length → readWChar P h1 q i = (s[i]?).map (widenChar P))
    (hz : readWChar P h1 q s.length = some 0) :
    IsWStr P h1 q (s.map (widenChar P)) := by
  refine ⟨?_, ?_, ?_⟩
  · intro i hi
    rw [List.length_map] at hi
    rw [hun i hi, List.getElem?_map]
  · intro u hu
    obtain ⟨x, hx, rfl⟩ := List.mem_map.mp hu
    intro e
    have hm := (widenChar_spec P x hw).1
    rw [e] at hm
    exact hnz x hx (Fin.ext (by simpa using hm.symm))
  · rw [List.length_map]
    exact hz

set_option maxRecDepth 4000 in
/-- C8, the claim as stated fails where plain `char` is signed: for the string of
the one byte `0xE9` (233) on a platform with signed `char` and 16-bit `wchar`,
`SysStringCharToWideChar` stores the sign-extended unit `0xFFE9` (65513), so
unit 0 is not byte 0 of the string. -/
theorem SysStringCharToWideChar_signed_char_unit :
    IsCStr exampleHighHeap { block := 0, off := 0 } exampleHighNarrow ∧
    SysStringCharToWideChar exampleSignedPlatform exampleHighHeap
        (some { block := 0, off := 0 }) (some exampleFresh)
      = some (some { block := 1, off := 0 }, [[233, 0], [233, 255, 0, 0]]) ∧
    readWChar exampleSignedPlatform [[233, 0], [233, 255, 0, 0]] { block := 1, off := 0 } 0
      = some 65513 ∧
    ¬ ∃ wstr h1, SysStringCharToWideChar exampleSignedPlatform exampleHighHeap
        (some { block := 0, off := 0 }) (some exampleFresh) = some (some wstr, h1) ∧
      ∀ i : Nat, i < exampleHighNarrow.length →
        readWChar exampleSignedPlatform h1 wstr i
          = (exampleHighNarrow[i]?).map (fun x => x.val) := by
  have hrun : SysStringCharToWideChar exampleSignedPlatform exampleHighHeap
        (some { block := 0, off := 0 }) (some exampleFresh)
      = some (some { block := 1, off := 0 }, [[233, 0], [233, 255, 0, 0]]) := by decide
  refine ⟨by decide, hrun, by decide, ?_⟩
  rintro ⟨wstr, h1, hr, hu⟩
  rw [hrun] at hr
  simp only [Option.some.injEq, Prod.mk.injEq] at hr
  obtain ⟨hw1, hh1⟩ := hr
  subst hw1
  subst hh1
  have h0 := hu 0 (by decide)
  revert h0
  decide

/-- C8, amended: for every non-null zero-terminated narrow string `s` of length
`n` (with `(n + 1) * sizeof(wchar)` inside the range of `int`), when the
allocation succeeds, `SysStringCharToWideChar` returns a pointer to the start of
a fresh buffer of exactly `n + 1` wide units in which unit `n` is 0 and unit
`i`, for every `0 ≤ i < n`, is byte `i` of `s` converted from `char` to `wchar`:
its low 8 bits are byte `i`; it equals byte `i` when plain `char` is unsigned or
byte `i` is below 128; and where `char` is signed and byte `i` is 128 or more it
is the sign-extended value `256 ^ sizeof(wchar) - 256 + byte i`. -/
theorem SysStringCharToWideChar_units (P : Platform) (h : Heap) (str : Ptr)
    (s : List Byte) (f : Nat → Byte) (hw : 0 < P.wcharSize) (hs : IsCStr h str s)
    (hfit : (s.length + 1) * P.wcharSize < 2147483648) :
    ∃ wstr h1, SysStringCharToWideChar P h (some str) (some f) = some (some wstr, h1) ∧
      wstr.off = 0 ∧
      blockSize h1 wstr.block = some ((s.length + 1) * P.wcharSize) ∧
      (∀ i : Nat, i < s.length →
        ∃ x u, s[i]? = some x ∧ readWChar P h1 wstr i = some u ∧
          u % 256 = x.val ∧
          ((P.charSigned = false ∨ x.val < 128) → u = x.val) ∧
          (P.charSigned = true → 128 ≤ x.val → u = 256 ^ P.wcharSize - 256 + x.val)) ∧
      readWChar P h1 wstr s.length = some 0 := by
  obtain ⟨h1, hr, -, -, hsz, hun, hz⟩ := charToWide_core P h str s f hw hs hfit
  refine ⟨{ block := h.length, off := 0 }, h1, hr, rfl, hsz, ?_, hz⟩
  intro i hi
  have hu := hun i hi
  rw [List.getElem?_eq_getElem hi] at hu
  obtain ⟨hm, -, he, hsg⟩ := widenChar_spec P s[i] hw
  exact ⟨s[i], widenChar P s[i], List.getElem?_eq_getElem hi, hu, hm, he, hsg⟩

set_option maxRecDepth 4000 in
theorem SysStringCharToWideChar_units_witness :
    0 < exampleSignedPlatform.wcharSize ∧
    IsCStr exampleHighHeap { block := 0, off := 0 } exampleHighNarrow ∧
    (exampleHighNarrow.length + 1) * exampleSignedPlatform.wcharSize < 2147483648 ∧
    ∃ wstr h1, SysStringCharToWideChar exampleSignedPlatform exampleHighHeap
        (some { block := 0, off := 0 }) (some exampleFresh) = some (some wstr, h1) ∧
      wstr.off = 0 ∧
      blockSize h1 wstr.block
        = some ((exampleHighNarrow.length + 1) * exampleSignedPlatform.wcharSize) ∧
      (∀ i : Nat, i < exampleHighNarrow.length →
        ∃ x u, exampleHighNarrow[i]? = some x ∧
          readWChar exampleSignedPlatform h1 wstr i = some u ∧
          u % 256 = x.val ∧
          ((exampleSignedPlatform.charSigned = false ∨ x.val < 128) → u = x.val) ∧
          (exampleSignedPlatform.charSigned = true → 128 ≤ x.val →
            u = 256 ^ exampleSignedPlatform.wcharSize - 256 + x.val)) ∧
      readWChar exampleSignedPlatform h1 wstr exampleHighNarrow.length = some 0 :=
  ⟨by decide, by decide, by simp [exampleHighNarrow, exampleSignedPlatform],
    SysStringCharToWideChar_units exampleSignedPlatform exampleHighHeap
      { block := 0, off := 0 } exampleHighNarrow exampleFresh (by decide) (by decide)
      (by simp [exampleHighNarrow, exampleSignedPlatform])⟩

/-- C9: for every non-null zero-terminated wide string `w` of length `n` (the
number of units before the first zero unit, with `n + 1` inside the range of
`int`), when the allocation succeeds, `SysStringWideCharToChar` returns a
pointer to the start of a fresh buffer of exactly `n + 1` bytes in which byte
`i` is the low 8 bits of wide unit `i` (unit `i` mod 256) for every `0 ≤ i < n`
and byte `n` is 0. -/
theorem SysStringWideCharToChar_bytes (P : Platform) (h : Heap) (wstr : Ptr)
    (us : List Nat) (f : Nat → Byte) (hs : IsWStr P h wstr us)
    (hfit : us.length + 1 < 2147483648) :
    ∃ str h1, SysStringWideCharToChar P h (some wstr) (some f) = some (some str, h1) ∧
      str.off = 0 ∧
      blockSize h1 str.block = some (us.length + 1) ∧
      (∀ i : Nat, i < us.length →
        SysBufferGetByte h1 str i = (us[i]?).map (fun u => ((u % 256 : Nat) : Int))) ∧
      SysBufferGetByte h1 str us.length = some 0 := by
  obtain ⟨h1, hr, -, -, hsz, hun, hz⟩ := wideToChar_core P h wstr us f hs hfit
  refine ⟨{ block := h.length, off := 0 }, h1, hr, rfl, hsz, ?_, ?_⟩
  · intro i hi
    have := hun i hi
    rw [List.getElem?_eq_getElem hi] at this ⊢
    simp only [SysBufferGetByte, zero_add, this, Option.map_some']
    rfl
  · simp only [SysBufferGetByte, zero_add, hz]
    rfl

theorem SysStringWideCharToChar_bytes_witness :
    IsWStr examplePlatform exampleStringHeap { block := 1, off := 0 } exampleWide ∧
    exampleWide.length + 1 < 2147483648 ∧
    ∃ str h1, SysStringWideCharToChar examplePlatform exampleStringHeap
        (some { block := 1, off := 0 }) (some exampleFresh) = some (some str, h1) ∧
      str.off = 0 ∧
      blockSize h1 str.block = some (exampleWide.length + 1) ∧
      (∀ i : Nat, i < exampleWide.length →
        SysBufferGetByte h1 str i =
          (exampleWide[i]?).map (fun u => ((u % 256 : Nat) : Int))) ∧
      SysBufferGetByte h1 str exampleWide.length = some 0 :=
  ⟨by decide, by simp [exampleWide],
    SysStringWideCharToChar_bytes examplePlatform exampleStringHeap { block := 1, off := 0 }
      exampleWide exampleFresh (by decide) (by simp [exampleWide])⟩

/-- C4: for every zero-terminated narrow string `s` (bytes in the range 0 to
255, with `(n + 1) * sizeof(wchar)` inside the range of `int`), when both
allocations succeed, `SysStringWideCharToChar (SysStringCharToWideChar s)` is a
zero-terminated string equal to `s`: the same length and the same byte at every
position. -/
theorem SysString_roundtrip (P : Platform) (h : Heap) (str : Ptr) (s : List Byte)
    (f1 f2 : Nat → Byte) (hw : 0 < P.wcharSize) (hs : IsCStr h str s)
    (hfit : (s.length + 1) * P.wcharSize < 2147483648) :
    ∃ wstr h1 str2 h2,
      SysStringCharToWideChar P h (some str) (some f1) = some (some wstr, h1) ∧
      SysStringWideCharToChar P h1 (some wstr) (some f2) = some (some str2, h2) ∧
      IsCStr h2 str2 s := by
  obtain ⟨h1, hr1, -, -, -, hun, hz⟩ := charToWide_core P h str s f1 hw hs hfit
  have hwide := isWStr_of_charToWide hw hs.2.1 hun hz
  have hn : s.length + 1 ≤ (s.length + 1) * P.wcharSize := Nat.le_mul_of_pos_right _ hw
  obtain ⟨h2, hr2, -, -, -, hby, hz2⟩ := wideToChar_core P h1 { block := h.length, off := 0 }
    (s.map (widenChar P)) f2 hwide (by rw [List.length_map]; omega)
  refine ⟨{ block := h.length, off := 0 }, h1, { block := h1.length, off := 0 }, h2, hr1, hr2,
    ?_, hs.2.1, ?_⟩
  · intro i hi
    have := hby i (by rw [List.length_map]; exact hi)
    rw [List.getElem?_map, List.getElem?_eq_getElem hi] at this
    simp only [zero_add, this, List.getElem?_eq_getElem hi, Option.map_some']
    congr 1
    exact Fin.ext (widenChar_spec P s[i] hw).1
  · rw [List.length_map] at hz2
    simp only [zero_add]
    exact hz2

set_option maxRecDepth 4000 in
theorem SysString_roundtrip_witness :
    0 < examplePlatform.wcharSize ∧
    IsCStr exampleStringHeap { block := 0, off := 0 } exampleNarrow ∧
    (exampleNarrow.length + 1) * examplePlatform.wcharSize < 2147483648 ∧
    ∃ wstr h1 str2 h2,
      SysStringCharToWideChar examplePlatform exampleStringHeap
        (some { block := 0, off := 0 }) (some exampleFresh) = some (some wstr, h1) ∧
      SysStringWideCharToChar examplePlatform h1 (some wstr) (some exampleFresh)
        = some (some str2, h2) ∧
      IsCStr h2 str2 exampleNarrow :=
  ⟨by decide, by decide, by simp [exampleNarrow, examplePlatform],
    SysString_roundtrip examplePlatform exampleStringHeap { block := 0, off := 0 }
      exampleNarrow exampleFresh exampleFresh (by decide) (by decide)
      (by simp [exampleNarrow, examplePlatform])⟩

/-- C10: `SysStringCharToWideChar` and `SysStringWideCharToChar`, called with a
null pointer or a zero-terminated string, return null exactly when the input is
null or the allocation fails; for a zero-length input and a successful
allocation they return a non-null pointer to a fresh buffer that holds only the
zero terminator (one wide unit, or one byte, equal to 0). -/
theorem SysString_null_iff (P : Platform) (h : Heap) (str wstr : Option Ptr)
    (s : List Byte) (us : List Nat) (fresh : Option (Nat → Byte))
    (hw : 0 < P.wcharSize)
    (hs : ∀ p, str = some p → IsCStr h p s ∧ (s.length + 1) * P.wcharSize < 2147483648)
    (hus : ∀ p, wstr = some p → IsWStr P h p us ∧ us.length + 1 < 2147483648) :
    (∃ r h1, SysStringCharToWideChar P h str fresh = some (r, h1) ∧
      (r = none ↔ (str = none ∨ fresh = none)) ∧
      (s = [] → ∀ q, r = some q →
        q.off = 0 ∧ blockSize h1 q.block = some P.wcharSize ∧
        readWChar P h1 q 0 = some 0)) ∧
    (∃ r h1, SysStringWideCharToChar P h wstr fresh = some (r, h1) ∧
      (r = none ↔ (wstr = none ∨ fresh = none)) ∧
      (us = [] → ∀ q, r = some q →
        q.off = 0 ∧ blockSize h1 q.block = some 1 ∧
        SysBufferGetByte h1 q 0 = some 0)) := by
  constructor
  · cases str with
    | none => exact ⟨none, h, rfl, by simp, by intro _ q hq; cases hq⟩
    | some p =>
      obtain ⟨hstr, hfit⟩ := hs p rfl
      cases fresh with
      | none =>
        exact ⟨none, h, charToWide_fail P h p s hstr, by simp, by intro _ q hq; cases hq⟩
      | some f =>
        obtain ⟨h1, hr, -, -, hsz, -, hz⟩ := charToWide_core P h p s f hw hstr hfit
        refine ⟨some { block := h.length, off := 0 }, h1, hr, by simp, ?_⟩
        intro hnil q hq
        cases hq
        subst hnil
        refine ⟨rfl, ?_, ?_⟩
        · simpa using hsz
        · simpa using hz
  · cases wstr with
    | none => exact ⟨none, h, rfl, by simp, by intro _ q hq; cases hq⟩
    | some p =>
      obtain ⟨hstr, hfit⟩ := hus p rfl
      cases fresh with
      | none =>
        exact ⟨none, h, wideToChar_fail P h p us hstr, by simp, by intro _ q hq; cases hq⟩
      | some f =>
        obtain ⟨h1, hr, -, -, hsz, -, hz⟩ := wideToChar_core P h p us f hstr hfit
        refine ⟨some { block := h.length, off := 0 }, h1, hr, by simp, ?_⟩
        intro hnil q hq
        cases hq
        subst hnil
        refine ⟨rfl, ?_, ?_⟩
        · simpa using hsz
        · simp only [SysBufferGetByte, zero_add]
          simp only [List.length_nil, Nat.cast_zero] at hz
          rw [hz]
          rfl

set_option maxRecDepth 4000 in
theorem SysString_null_iff_witness :
    0 < examplePlatform.wcharSize ∧
    (∀ p, some ({ block := 0, off := 0 } : Ptr) = some p →
      IsCStr exampleEmptyHeap p [] ∧
        (([] : List Byte).length + 1) * examplePlatform.wcharSize < 2147483648) ∧
    (∀ p, some ({ block := 1, off := 0 } : Ptr) = some p →
      IsWStr examplePlatform exampleEmptyHeap p [] ∧
        ([] : List Nat).length + 1 < 2147483648) ∧
    (∃ r h1, SysStringCharToWideChar examplePlatform exampleEmptyHeap
        (some { block := 0, off := 0 }) (some exampleFresh) = some (r, h1) ∧
      (r = none ↔ (some ({ block := 0, off := 0 } : Ptr) = none ∨ some exampleFresh = none)) ∧
      (([] : List Byte) = [] → ∀ q, r = some q →
        q.off = 0 ∧ blockSize h1 q.block = some examplePlatform.wcharSize ∧
        readWChar examplePlatform h1 q 0 = some 0)) ∧
    (∃ r h1, SysStringWideCharToChar examplePlatform exampleEmptyHeap
        (some { block := 1, off := 0 }) (some exampleFresh) = some (r, h1) ∧
      (r = none ↔ (some ({ block := 1, off := 0 } : Ptr) = none ∨ some exampleFresh = none)) ∧
      (([] : List Nat) = [] → ∀ q, r = some q →
        q.off = 0 ∧ blockSize h1 q.block = some 1 ∧
        SysBufferGetByte h1 q 0 = some 0)) :=
  ⟨by decide,
    fun p hp => by
      cases hp
      exact ⟨by decide, by simp [examplePlatform]⟩,
    fun p hp => by
      cases hp
      exact ⟨by decide, by simp⟩,
    SysString_null_iff examplePlatform exampleEmptyHeap (some { block := 0, off := 0 })
      (some { block := 1, off := 0 }) [] [] (some exampleFresh) (by decide)
      (fun p hp => by
        cases hp
        exact ⟨by decide, by simp [examplePlatform]⟩)
      (fun p hp => by
        cases hp
        exact ⟨by decide, by simp⟩)⟩

/-! ## Byte view -/

theorem intToByte_val (v : Int) : (((intToByte v).val : Nat) : Int) = v % 256 := by
  unfold intToByte toByte toU32
  simp only
  omega

/-- C11: for every buffer, every in-range byte index `i` and every `int` value
`v`, `SysBufferSetByte buffer i v` succeeds; afterwards `SysBufferGetByte buffer
i` returns `v mod 256`, a value in `0..255`, so `v` itself is read back exactly
when `0 ≤ v ≤ 255`; every other byte of memory is unchanged. -/
theorem SysBufferSetByte_GetByte_mod (h : Heap) (buffer : Ptr) (i v : Int)
    (hr : ByteInRange h buffer i) :
    ∃ h1, SysBufferSetByte h buffer i v = some h1 ∧
      SysBufferGetByte h1 buffer i = some (v % 256) ∧
      0 ≤ v % 256 ∧ v % 256 ≤ 255 ∧
      (SysBufferGetByte h1 buffer i = some v ↔ 0 ≤ v ∧ v ≤ 255) ∧
      ∀ (q : Ptr) (j : Int), (q.block ≠ buffer.block ∨ q.off + j ≠ buffer.off + i) →
        SysBufferGetByte h1 q j = SysBufferGetByte h q j := by
  obtain ⟨h1, hp⟩ := poke_some_of_inRange h buffer.block (buffer.off + i) (intToByte v) hr
  have hget : SysBufferGetByte h1 buffer i = some (v % 256) := by
    unfold SysBufferGetByte
    rw [peek_poke hp, if_pos ⟨rfl, rfl⟩]
    simp only [intToByte_val]
  refine ⟨h1, hp, hget, by omega, by omega, ?_, ?_⟩
  · rw [hget]
    simp only [Option.some.injEq]
    omega
  · intro q j hq
    apply SysBufferGetByte_congr
    rw [peek_poke hp, if_neg]
    rintro ⟨q1, q2⟩
    rcases hq with hq | hq
    · exact hq q1
    · exact hq q2

theorem SysBufferSetByte_GetByte_mod_witness :
    ByteInRange exampleBufferHeap { block := 0, off := 0 } 3 ∧
    ∃ h1, SysBufferSetByte exampleBufferHeap { block := 0, off := 0 } 3 (-2) = some h1 ∧
      SysBufferGetByte h1 { block := 0, off := 0 } 3 = some ((-2) % 256) ∧
      0 ≤ (-2 : Int) % 256 ∧ (-2 : Int) % 256 ≤ 255 ∧
      (SysBufferGetByte h1 { block := 0, off := 0 } 3 = some (-2) ↔
        0 ≤ (-2 : Int) ∧ (-2 : Int) ≤ 255) ∧
      ∀ (q : Ptr) (j : Int),
        (q.block ≠ ({ block := 0, off := 0 } : Ptr).block ∨
          q.off + j ≠ ({ block := 0, off := 0 } : Ptr).off + 3) →
        SysBufferGetByte h1 q j = SysBufferGetByte exampleBufferHeap q j :=
  ⟨by decide,
    SysBufferSetByte_GetByte_mod exampleBufferHeap { block := 0, off := 0 } 3 (-2) (by decide)⟩

/-! ## Record fields -/

theorem slotsApart_symm {a b : Int} (hab : SlotsApart a b) : SlotsApart b a := by
  unfold SlotsApart at *
  omega

theorem storeIntField_spec (P : Platform) (h : Heap) (p : Ptr) (a v : Int)
    (hr : FieldInRange h p a) (hv : IsInt32 v) :
    ∃ h1, storeIntField P h p a v = some h1 ∧
      loadIntField P h1 p a = some v ∧
      ∀ b, SlotsApart a b → loadIntField P h1 p b = loadIntField P h p b := by
  obtain ⟨h1, hs⟩ := storeBytes_some_of_inRange (encode P.order sizeofInt (toU32 v)) h p.block
    (p.off + a) (by rw [length_encode]; exact hr)
  refine ⟨h1, hs, ?_, ?_⟩
  · have hl := loadBytes_storeBytes_same hs
    rw [length_encode] at hl
    unfold loadIntField
    rw [hl]
    simp only [Option.some.injEq]
    exact toI32_decode_encode P.order v hv
  · intro b hb
    unfold loadIntField
    rw [loadBytes_storeBytes_apart hs]
    right
    rw [length_encode]
    unfold SlotsApart at hb
    omega

/-- C12: the geometry setters are pass-through and touch one field only.  For
every rect inside its block and every 32-bit `v` (negative included), after
`SysRectSetWidth rect v` the getter `SysRectGetWidth rect` returns `v` and
left, top and height are unchanged, and likewise for `SysRectSetLeft`,
`SysRectSetTop` and `SysRectSetHeight`; for every point, `SysPointSetX point v`
makes `SysPointGetX` return `v` and leaves `y` unchanged, and `SysPointSetY`
makes `SysPointGetY` return `v` and leaves `x` unchanged. -/
theorem SysRect_SysPoint_set_one_field (LR : MARectLayout) (LP : MAPoint2dLayout)
    (P : Platform) (h : Heap) (rect point : Ptr) (v : Int)
    (hLR : LR.Apart) (hLP : LP.Apart)
    (hrect : RectInRange LR h rect) (hpoint : PointInRange LP h point) (hv : IsInt32 v) :
    (∃ h1, SysRectSetWidth LR P h rect v = some h1 ∧
      SysRectGetWidth LR P h1 rect = some v ∧
      SysRectGetLeft LR P h1 rect = SysRectGetLeft LR P h rect ∧
      SysRectGetTop LR P h1 rect = SysRectGetTop LR P h rect ∧
      SysRectGetHeight LR P h1 rect = SysRectGetHeight LR P h rect) ∧
    (∃ h1, SysRectSetLeft LR P h rect v = some h1 ∧
      SysRectGetLeft LR P h1 rect = some v ∧
      SysRectGetTop LR P h1 rect = SysRectGetTop LR P h rect ∧
      SysRectGetWidth LR P h1 rect = SysRectGetWidth LR P h rect ∧
      SysRectGetHeight LR P h1 rect = SysRectGetHeight LR P h rect) ∧
    (∃ h1, SysRectSetTop LR P h rect v = some h1 ∧
      SysRectGetTop LR P h1 rect = some v ∧
      SysRectGetLeft LR P h1 rect = SysRectGetLeft LR P h rect ∧
      SysRectGetWidth LR P h1 rect = SysRectGetWidth LR P h rect ∧
      SysRectGetHeight LR P h1 rect = SysRectGetHeight LR P h rect) ∧
    (∃ h1, SysRectSetHeight LR P h rect v = some h1 ∧
      SysRectGetHeight LR P h1 rect = some v ∧
      SysRectGetLeft LR P h1 rect = SysRectGetLeft LR P h rect ∧
      SysRectGetTop LR P h1 rect = SysRectGetTop LR P h rect ∧
      SysRectGetWidth LR P h1 rect = SysRectGetWidth LR P h rect) ∧
    (∃ h1, SysPointSetX LP P h point v = some h1 ∧
      SysPointGetX LP P h1 point = some v ∧
      SysPointGetY LP P h1 point = SysPointGetY LP P h point) ∧
    (∃ h1, SysPointSetY LP P h point v = some h1 ∧
      SysPointGetY LP P h1 point = some v ∧
      SysPointGetX LP P h1 point = SysPointGetX LP P h point) := by
  obtain ⟨hlt, hlw, hlh, htw, hth, hwh⟩ := hLR
  obtain ⟨rl, rt, rw, rh⟩ := hrect
  obtain ⟨px, py⟩ := hpoint
  refine ⟨?_, ?_, ?_, ?_, ?_, ?_⟩
  · obtain ⟨h1, hs, hg, hfr⟩ := storeIntField_spec P h rect LR.widthOff v rw hv
    exact ⟨h1, hs, hg, hfr _ (slotsApart_symm hlw), hfr _ (slotsApart_symm htw), hfr _ hwh⟩
  · obtain ⟨h1, hs, hg, hfr⟩ := storeIntField_spec P h rect LR.leftOff v rl hv
    exact ⟨h1, hs, hg, hfr _ hlt, hfr _ hlw, hfr _ hlh⟩
  · obtain ⟨h1, hs, hg, hfr⟩ := storeIntField_spec P h rect LR.topOff v rt hv
    exact ⟨h1, hs, hg, hfr _ (slotsApart_symm hlt), hfr _ htw, hfr _ hth⟩
  · obtain ⟨h1, hs, hg, hfr⟩ := storeIntField_spec P h rect LR.heightOff v rh hv
    exact ⟨h1, hs, hg, hfr _ (slotsApart_symm hlh), hfr _ (slotsApart_symm hth),
      hfr _ (slotsApart_symm hwh)⟩
  · obtain ⟨h1, hs, hg, hfr⟩ := storeIntField_spec P h point LP.xOff v px hv
    exact ⟨h1, hs, hg, hfr _ hLP⟩
  · obtain ⟨h1, hs, hg, hfr⟩ := storeIntField_spec P h point LP.yOff v py hv
    exact ⟨h1, hs, hg, hfr _ (slotsApart_symm hLP)⟩

theorem SysRect_SysPoint_set_one_field_witness :
    exampleRectLayout.Apart ∧ examplePointLayout.Apart ∧
    RectInRange exampleRectLayout exampleGeometryHeap { block := 0, off := 0 } ∧
    PointInRange examplePointLayout exampleGeometryHeap { block := 1, off := 0 } ∧
    IsInt32 (-7) ∧
    (∃ h1, SysRectSetWidth exampleRectLayout examplePlatform exampleGeometryHeap
        { block := 0, off := 0 } (-7) = some h1 ∧
      SysRectGetWidth exampleRectLayout examplePlatform h1 { block := 0, off := 0 }
        = some (-7) ∧
      SysRectGetLeft exampleRectLayout examplePlatform h1 { block := 0, off := 0 } =
        SysRectGetLeft exampleRectLayout examplePlatform exampleGeometryHeap
          { block := 0, off := 0 } ∧
      SysRectGetTop exampleRectLayout examplePlatform h1 { block := 0, off := 0 } =
        SysRectGetTop exampleRectLayout examplePlatform exampleGeometryHeap
          { block := 0, off := 0 } ∧
      SysRectGetHeight exampleRectLayout examplePlatform h1 { block := 0, off := 0 } =
        SysRectGetHeight exampleRectLayout examplePlatform exampleGeometryHeap
          { block := 0, off := 0 }) ∧
    (∃ h1, SysPointSetX examplePointLayout examplePlatform exampleGeometryHeap
        { block := 1, off := 0 } (-7) = some h1 ∧
      SysPointGetX examplePointLayout examplePlatform h1 { block := 1, off := 0 }
        = some (-7) ∧
      SysPointGetY examplePointLayout examplePlatform h1 { block := 1, off := 0 } =
        SysPointGetY examplePointLayout examplePlatform exampleGeometryHeap
          { block := 1, off := 0 }) :=
  ⟨by decide, by decide, by decide, by decide, by decide,
    (SysRect_SysPoint_set_one_field exampleRectLayout examplePointLayout examplePlatform
      exampleGeometryHeap { block := 0, off := 0 } { block := 1, off := 0 } (-7)
      (by decide) (by decide) (by decide) (by decide) (by decide)).1,
    (SysRect_SysPoint_set_one_field exampleRectLayout examplePointLayout examplePlatform
      exampleGeometryHeap { block := 0, off := 0 } { block := 1, off := 0 } (-7)
      (by decide) (by decide) (by decide) (by decide) (by decide)).2.2.2.2.1⟩

/-! ## Bit shifts -/

theorem toU32_toI32 (u : Nat) : toU32 (toI32 u) = u % 4294967296 := by
  unfold toU32 toI32
  split <;> omega

theorem shiftRight_lt (x n : Nat) (hx : x < 4294967296) (hn : 1 ≤ n) :
    x / 2 ^ n < 2147483648 := by
  have h2 : 2 ≤ 2 ^ n := by
    calc 2 = 2 ^ 1 := by norm_num
      _ ≤ 2 ^ n := Nat.pow_le_pow_right (by norm_num) hn
  have h3 : x / 2 ^ n ≤ x / 2 := Nat.div_le_div_left h2 (by norm_num)
  omega

theorem shiftLeft_shiftRight (x n : Nat) (hn : n ≤ 32) :
    (x * 2 ^ n % 4294967296) / 2 ^ n = x % 2 ^ (32 - n) := by
  have hp : (4294967296 : Nat) = 2 ^ (32 - n) * 2 ^ n := by
    rw [← pow_add, Nat.sub_add_cancel hn]
    norm_num
  rw [hp, Nat.mul_mod_mul_right, Nat.mul_div_cancel _ (by positivity)]

theorem SysBitShiftRight_eq (a bits : Int) (hb0 : 0 ≤ bits) (hb : bits ≤ 31) :
    SysBitShiftRight a bits = some (toI32 (toU32 a / 2 ^ bits.toNat)) := by
  unfold SysBitShiftRight
  rw [if_pos ⟨hb0, by omega⟩, Nat.shiftRight_eq_div_pow]

/-- C13: `SysBitShiftRight` is a 32-bit shift on the unsigned reinterpretation
of `a`, zero-filling: for every `a` and every `0 ≤ bits ≤ 31` the result is
`floor((a mod 2^32) / 2^bits)` reinterpreted as a signed 32-bit `int`; for
`bits ≥ 1` that is the number `floor((a mod 2^32) / 2^bits)` itself, which is
not negative even when `a` is; `SysBitShiftRight (-1) 1 = 2^31 - 1`. -/
theorem SysBitShiftRight_zero_fill (a bits : Int) (hb0 : 0 ≤ bits) (hb : bits ≤ 31) :
    SysBitShiftRight a bits = some (toI32 ((a % 4294967296).toNat / 2 ^ bits.toNat)) ∧
    (1 ≤ bits →
      SysBitShiftRight a bits =
        some ((((a % 4294967296).toNat / 2 ^ bits.toNat : Nat) : Int)) ∧
      ∀ r, SysBitShiftRight a bits = some r → 0 ≤ r) ∧
    SysBitShiftRight (-1) 1 = some 2147483647 := by
  have he := SysBitShiftRight_eq a bits hb0 hb
  refine ⟨he, ?_, by decide⟩
  intro h1
  have hlt : toU32 a / 2 ^ bits.toNat < 2147483648 :=
    shiftRight_lt (toU32 a) bits.toNat (toU32_lt a) (by omega)
  have hv : SysBitShiftRight a bits = some (((toU32 a / 2 ^ bits.toNat : Nat) : Int)) := by
    rw [he, toI32_of_lt _ hlt]
  refine ⟨hv, ?_⟩
  intro r hr
  rw [hv] at hr
  cases hr
  exact Int.natCast_nonneg _

theorem SysBitShiftRight_zero_fill_witness :
    (0 : Int) ≤ 4 ∧ (4 : Int) ≤ 31 ∧
    SysBitShiftRight (-256) 4 =
      some (toI32 (((-256 : Int) % 4294967296).toNat / 2 ^ (4 : Int).toNat)) ∧
    ((1 : Int) ≤ 4 →
      SysBitShiftRight (-256) 4 =
        some (((((-256 : Int) % 4294967296).toNat / 2 ^ (4 : Int).toNat : Nat) : Int)) ∧
      ∀ r, SysBitShiftRight (-256) 4 = some r → 0 ≤ r) ∧
    SysBitShiftRight (-1) 1 = some 2147483647 :=
  ⟨by decide, by decide, SysBitShiftRight_zero_fill (-256) 4 (by decide) (by decide)⟩

/-- C19, the claim as stated fails for `k = 0` and a negative `a`: shifting `-1`
left and then right by 0 returns the `int` `-1`, not the number
`((-1) mod 2^32) mod 2^32 = 4294967295`. -/
theorem SysBitShift_zero_count_negative :
    SysBitShiftLeft (-1) 0 = some (-1) ∧ SysBitShiftRight (-1) 0 = some (-1) ∧
    ((-1 : Int) % 4294967296) % 2 ^ (32 - 0) = 4294967295 ∧
    ¬ ∃ s, SysBitShiftLeft (-1) 0 = some s ∧
      SysBitShiftRight s 0 = some (((-1 : Int) % 4294967296) % 2 ^ (32 - 0)) := by
  refine ⟨by decide, by decide, by decide, ?_⟩
  rintro ⟨s, hs, hr⟩
  have h1 : SysBitShiftLeft (-1) 0 = some (-1) := by decide
  rw [h1] at hs
  cases hs
  have h2 : SysBitShiftRight (-1) 0 = some (-1) := by decide
  rw [h2] at hr
  revert hr
  decide

/-- C19, amended: for every `a` and every `0 ≤ k ≤ 31`, `SysBitShiftLeft a k` is
`(a mod 2^32) * 2^k mod 2^32` reinterpreted as a signed 32-bit `int`, and
shifting it right by `k` gives the low `32 - k` bits of `a`,
`(a mod 2^32) mod 2^(32 - k)`, reinterpreted as a signed 32-bit `int`.  For
`1 ≤ k ≤ 31`, and for `k = 0` when `a ≥ 0`, that is the number
`(a mod 2^32) mod 2^(32 - k)` itself; for `k = 0` it is `a`. -/
theorem SysBitShift_left_then_right (a k : Int) (ha : IsInt32 a) (hk0 : 0 ≤ k)
    (hk : k ≤ 31) :
    ∃ s, SysBitShiftLeft a k = some s ∧
      s = toI32 ((a % 4294967296).toNat * 2 ^ k.toNat % 4294967296) ∧
      SysBitShiftRight s k =
        some (toI32 ((a % 4294967296).toNat % 2 ^ (32 - k.toNat))) ∧
      (1 ≤ k ∨ 0 ≤ a →
        SysBitShiftRight s k =
          some ((((a % 4294967296).toNat % 2 ^ (32 - k.toNat) : Nat) : Int))) ∧
      (k = 0 → SysBitShiftRight s k = some a) := by
  have hsl : SysBitShiftLeft a k
      = some (toI32 (toU32 a * 2 ^ k.toNat % 4294967296)) := by
    unfold SysBitShiftLeft
    rw [if_pos ⟨hk0, by omega⟩, Nat.shiftLeft_eq]
  have hsr : SysBitShiftRight (toI32 (toU32 a * 2 ^ k.toNat % 4294967296)) k
      = some (toI32 (toU32 a % 2 ^ (32 - k.toNat))) := by
    rw [SysBitShiftRight_eq _ k hk0 hk, toU32_toI32, Nat.mod_mod,
      shiftLeft_shiftRight _ _ (by omega)]
  refine ⟨_, hsl, rfl, hsr, ?_, ?_⟩
  · intro hc
    have hsr1 := hsr
    unfold toU32 at hsr1 ⊢
    rw [hsr1]
    congr 1
    apply toI32_of_lt
    rcases hc with hc | hc
    · have hpow : 2 ^ (32 - k.toNat) ≤ 2 ^ 31 :=
        Nat.pow_le_pow_right (by norm_num) (by omega)
      have hmod : (a % 4294967296).toNat % 2 ^ (32 - k.toNat) < 2 ^ (32 - k.toNat) :=
        Nat.mod_lt _ (by positivity)
      norm_num at hpow
      omega
    · have hle : (a % 4294967296).toNat % 2 ^ (32 - k.toNat) ≤ (a % 4294967296).toNat :=
        Nat.mod_le _ _
      unfold IsInt32 at ha
      omega
  · intro hk00
    subst hk00
    rw [hsr]
    congr 1
    have : toU32 a % 2 ^ (32 - (0 : Int).toNat) = toU32 a := by
      apply Nat.mod_eq_of_lt
      have := toU32_lt a
      simpa using this
    rw [this]
    exact toI32_toU32 a ha

theorem SysBitShift_left_then_right_witness :
    IsInt32 (-3) ∧ (0 : Int) ≤ 4 ∧ (4 : Int) ≤ 31 ∧
    ∃ s, SysBitShiftLeft (-3) 4 = some s ∧
      s = toI32 (((-3 : Int) % 4294967296).toNat * 2 ^ (4 : Int).toNat % 4294967296) ∧
      SysBitShiftRight s 4 =
        some (toI32 (((-3 : Int) % 4294967296).toNat % 2 ^ (32 - (4 : Int).toNat))) ∧
      ((1 : Int) ≤ 4 ∨ (0 : Int) ≤ -3 →
        SysBitShiftRight s 4 =
          some (((((-3 : Int) % 4294967296).toNat % 2 ^ (32 - (4 : Int).toNat) : Nat) : Int))) ∧
      ((4 : Int) = 0 → SysBitShiftRight s 4 = some (-3)) :=
  ⟨by decide, by decide, by decide,
    SysBitShift_left_then_right (-3) 4 (by decide) (by decide) (by decide)⟩

/-! ## Sizes and overlapping views -/

/-- C14: `SysSizeOfInt` returns 4, `SysSizeOfFloat` returns 4 and
`SysSizeOfDouble` returns 8, and these are the element sizes the typed views
scale their index by: `SysBufferGetInt` at index `i` reads the 4 bytes at byte
offset `i * SysSizeOfInt`, `SysBufferGetFloat` the 4 bytes at
`i * SysSizeOfFloat` and `SysBufferGetDouble` the 8 bytes at
`i * SysSizeOfDouble`. -/
theorem SysSizeOf_values_scale_views :
    SysSizeOfInt = 4 ∧ SysSizeOfFloat = 4 ∧ SysSizeOfDouble = 8 ∧
    ∀ (P : Platform) (h : Heap) (buffer : Ptr) (i : Int),
      SysBufferGetInt P h buffer i =
        (loadBytes h buffer.block (buffer.off + i * SysSizeOfInt) 4).map
          (fun bs => toI32 (decode P.order bs)) ∧
      SysBufferGetFloat P h buffer i =
        (loadBytes h buffer.block (buffer.off + i * SysSizeOfFloat) 4).map
          (fun bs => decode P.order bs) ∧
      SysBufferGetDouble P h buffer i =
        (loadBytes h buffer.block (buffer.off + i * SysSizeOfDouble) 8).map
          (fun bs => decode P.order bs) := by
  refine ⟨rfl, rfl, rfl, ?_⟩
  intro P h buffer i
  refine ⟨?_, ?_, ?_⟩
  · unfold SysBufferGetInt SysSizeOfInt
    rw [mul_comm i]
    show _ = Option.map _ (loadBytes h buffer.block (buffer.off + (sizeofInt : Int) * i) sizeofInt)
    generalize loadBytes h buffer.block (buffer.off + (sizeofInt : Int) * i) sizeofInt = o
    cases o <;> rfl
  · unfold SysBufferGetFloat SysSizeOfFloat
    rw [mul_comm i]
    show _ = Option.map _ (loadBytes h buffer.block (buffer.off + (sizeofFloat : Int) * i) sizeofFloat)
    generalize loadBytes h buffer.block (buffer.off + (sizeofFloat : Int) * i) sizeofFloat = o
    cases o <;> rfl
  · unfold SysBufferGetDouble SysSizeOfDouble
    rw [mul_comm i]
    show _ = Option.map _ (loadBytes h buffer.block (buffer.off + (sizeofDouble : Int) * i) sizeofDouble)
    generalize loadBytes h buffer.block (buffer.off + (sizeofDouble : Int) * i) sizeofDouble = o
    cases o <;> rfl

theorem loadBytes_add (h : Heap) (b : Nat) (m n : Nat) :
    ∀ a : Int, loadBytes h b a (m + n) =
      match loadBytes h b a m with
      | some l1 =>
        match loadBytes h b (a + m) n with
        | some l2 => some (l1 ++ l2)
        | none => none
      | none => none := by
  induction m with
  | zero =>
    intro a
    simp only [Nat.zero_add, loadBytes, Nat.cast_zero, add_zero, List.nil_append]
    cases loadBytes h b a n <;> rfl
  | succ m ih =>
    intro a
    rw [show m + 1 + n = (m + n) + 1 by omega]
    simp only [loadBytes]
    cases peek h b a with
    | none => rfl
    | some x =>
      simp only
      rw [ih (a + 1)]
      have e : a + 1 + (m : Int) = a + ((m + 1 : Nat) : Int) := by
        push_cast
        omega
      rw [e]
      cases loadBytes h b (a + 1) m with
      | none => rfl
      | some l1 =>
        simp only
        cases loadBytes h b (a + ((m + 1 : Nat) : Int)) n <;> rfl

theorem decodeLE_append (l1 l2 : List Byte) :
    decodeLE (l1 ++ l2) = decodeLE l1 + 256 ^ l1.length * decodeLE l2 := by
  induction l1 with
  | nil => simp [decodeLE]
  | cons x xs ih =>
    show (x : Nat) + 256 * decodeLE (xs ++ l2) =
      (x : Nat) + 256 * decodeLE xs + 256 ^ (xs.length + 1) * decodeLE l2
    rw [ih, pow_succ]
    ring

theorem decodeLE_lt (l : List Byte) : decodeLE l < 256 ^ l.length := by
  induction l with
  | nil => simp [decodeLE]
  | cons x xs ih =>
    simp only [decodeLE, List.length_cons, pow_succ]
    have := x.isLt
    omega

theorem decode_lt (o : ByteOrder) (l : List Byte) : decode o l < 256 ^ l.length := by
  cases o with
  | little => exact decodeLE_lt l
  | big =>
    have := decodeLE_lt l.reverse
    rw [List.length_reverse] at this
    exact this

theorem decode_append (o : ByteOrder) (l1 l2 : List Byte)
    (h1 : l1.length = 4) (h2 : l2.length = 4) :
    decode o (l1 ++ l2) = joinWords o (decode o l1) (decode o l2) := by
  cases o with
  | little =>
    simp only [decode, joinWords, decodeLE_append, h1]
    norm_num
  | big =>
    simp only [decode, joinWords, List.reverse_append, decodeLE_append, List.length_reverse, h2]
    norm_num
    omega

theorem decode_word_lt {h : Heap} {b : Nat} {a : Int} {l : List Byte} (o : ByteOrder)
    (hl : loadBytes h b a 4 = some l) : l.length = 4 ∧ toU32 (toI32 (decode o l)) = decode o l := by
  have hlen := ((loadBytes_eq_some_iff 4 h b a l).mp hl).1
  refine ⟨hlen, ?_⟩
  rw [toU32_toI32]
  apply Nat.mod_eq_of_lt
  have := decode_lt o l
  rw [hlen] at this
  norm_num at this
  exact this

theorem getInt_map_toU32 (P : Platform) (h : Heap) (buffer : Ptr) (i : Int) :
    (SysBufferGetInt P h buffer i).map toU32 = SysBufferGetFloat P h buffer i := by
  unfold SysBufferGetInt SysBufferGetFloat
  show Option.map toU32 (match loadBytes h buffer.block (buffer.off + ((4 : Nat) : Int) * i) 4 with
      | some bs => some (toI32 (decode P.order bs))
      | none => none) =
    match loadBytes h buffer.block (buffer.off + ((4 : Nat) : Int) * i) 4 with
      | some bs => some (decode P.order bs)
      | none => none
  cases hl : loadBytes h buffer.block (buffer.off + ((4 : Nat) : Int) * i) 4 with
  | none => rfl
  | some l =>
    simp only [Option.map_some', Option.some.injEq]
    exact (decode_word_lt P.order hl).2

theorem getDouble_eq_words (P : Platform) (h : Heap) (buffer : Ptr) (i : Int) :
    SysBufferGetDouble P h buffer i =
      (SysBufferGetInt P h buffer (2 * i)).bind (fun first =>
        (SysBufferGetInt P h buffer (2 * i + 1)).map (fun second =>
          joinWords P.order (toU32 first) (toU32 second))) := by
  unfold SysBufferGetDouble SysBufferGetInt
  have e1 : buffer.off + (sizeofInt : Int) * (2 * i) = buffer.off + (sizeofDouble : Int) * i := by
    simp only [sizeofInt, sizeofDouble]
    push_cast
    omega
  have e2 : buffer.off + (sizeofInt : Int) * (2 * i + 1)
      = buffer.off + (sizeofDouble : Int) * i + ((4 : Nat) : Int) := by
    simp only [sizeofInt, sizeofDouble]
    push_cast
    omega
  rw [e1, e2]
  show (match loadBytes h buffer.block (buffer.off + (sizeofDouble : Int) * i) (4 + 4) with
      | some bs => some (decode P.order bs)
      | none => none) =
    (match loadBytes h buffer.block (buffer.off + (sizeofDouble : Int) * i) 4 with
      | some bs => some (toI32 (decode P.order bs))
      | none => none).bind (fun first =>
        (match loadBytes h buffer.block
            (buffer.off + (sizeofDouble : Int) * i + ((4 : Nat) : Int)) 4 with
          | some bs => some (toI32 (decode P.order bs))
          | none => none).map (fun second =>
          joinWords P.order (toU32 first) (toU32 second)))
  rw [loadBytes_add]
  cases hl1 : loadBytes h buffer.block (buffer.off + (sizeofDouble : Int) * i) 4 with
  | none => rfl
  | some l1 =>
    cases hl2 : loadBytes h buffer.block
        (buffer.off + (sizeofDouble : Int) * i + ((4 : Nat) : Int)) 4 with
    | none => rfl
    | some l2 =>
      obtain ⟨hlen1, hu1⟩ := decode_word_lt P.order hl1
      obtain ⟨hlen2, hu2⟩ := decode_word_lt P.order hl2
      simp only [Option.some_bind, Option.map_some', Option.some.injEq, hu1, hu2]
      exact decode_append P.order l1 l2 hlen1 hlen2

/-- C15: float and double reads are overlapping views of the bytes the int view
addresses.  The 32-bit pattern `SysBufferGetFloat buffer i` interprets is the
pattern `SysBufferGetInt buffer i` returns (bytes `4 * i .. 4 * i + 3`): each is
the reinterpretation of the other.  The 64-bit pattern `SysBufferGetDouble
buffer i` interprets is the 8 bytes at offsets `8 * i .. 8 * i + 7`, which are
the int slots `2 * i` and `2 * i + 1` joined in the native byte order.  A value
written with `SysBufferSetInt` at an in-range index `i` is what the float view
at index `i` reads back, bit for bit. -/
theorem SysBufferGetFloat_GetDouble_overlap (P : Platform) (h : Heap) (buffer : Ptr)
    (i v : Int) (hr : IntInRange h buffer i) :
    (SysBufferGetFloat P h buffer i).map toI32 = SysBufferGetInt P h buffer i ∧
    (SysBufferGetInt P h buffer i).map toU32 = SysBufferGetFloat P h buffer i ∧
    SysBufferGetFloat P h buffer i =
      (loadBytes h buffer.block (buffer.off + 4 * i) 4).map (fun bs => decode P.order bs) ∧
    SysBufferGetDouble P h buffer i =
      (loadBytes h buffer.block (buffer.off + 8 * i) 8).map (fun bs => decode P.order bs) ∧
    SysBufferGetDouble P h buffer i =
      (SysBufferGetInt P h buffer (2 * i)).bind (fun first =>
        (SysBufferGetInt P h buffer (2 * i + 1)).map (fun second =>
          joinWords P.order (toU32 first) (toU32 second))) ∧
    ∃ h1, SysBufferSetInt P h buffer i v = some h1 ∧
      SysBufferGetFloat P h1 buffer i = some (toU32 v) := by
  refine ⟨?_, getInt_map_toU32 P h buffer i, ?_, ?_, getDouble_eq_words P h buffer i, ?_⟩
  · unfold SysBufferGetFloat SysBufferGetInt
    show Option.map toI32 (match loadBytes h buffer.block
          (buffer.off + (sizeofInt : Int) * i) sizeofInt with
        | some bs => some (decode P.order bs)
        | none => none) = _
    generalize loadBytes h buffer.block (buffer.off + (sizeofInt : Int) * i) sizeofInt = o
    cases o <;> rfl
  · unfold SysBufferGetFloat
    show _ = Option.map _ (loadBytes h buffer.block (buffer.off + (sizeofFloat : Int) * i)
      sizeofFloat)
    generalize loadBytes h buffer.block (buffer.off + (sizeofFloat : Int) * i) sizeofFloat = o
    cases o <;> rfl
  · unfold SysBufferGetDouble
    show _ = Option.map _ (loadBytes h buffer.block (buffer.off + (sizeofDouble : Int) * i)
      sizeofDouble)
    generalize loadBytes h buffer.block (buffer.off + (sizeofDouble : Int) * i) sizeofDouble = o
    cases o <;> rfl
  · obtain ⟨h1, hs⟩ := SysBufferSetInt_some P h buffer i v hr
    refine ⟨h1, hs, ?_⟩
    unfold SysBufferSetInt at hs
    have hl := loadBytes_storeBytes_same hs
    rw [length_encode] at hl
    unfold SysBufferGetFloat
    show (match loadBytes h1 buffer.block (buffer.off + (sizeofInt : Int) * i) sizeofInt with
        | some bs => some (decode P.order bs)
        | none => none) = _
    rw [hl]
    simp only [Option.some.injEq, decode_encode]
    apply Nat.mod_eq_of_lt
    have := toU32_lt v
    simpa [sizeofInt] using this

theorem SysBufferGetFloat_GetDouble_overlap_witness :
    IntInRange exampleBufferHeap { block := 0, off := 0 } 1 ∧
    SysBufferGetDouble examplePlatform exampleBufferHeap { block := 0, off := 0 } 0 =
      (SysBufferGetInt examplePlatform exampleBufferHeap { block := 0, off := 0 } (2 * 0)).bind
        (fun first =>
          (SysBufferGetInt examplePlatform exampleBufferHeap { block := 0, off := 0 }
            (2 * 0 + 1)).map (fun second =>
              joinWords examplePlatform.order (toU32 first) (toU32 second))) ∧
    ∃ h1, SysBufferSetInt examplePlatform exampleBufferHeap { block := 0, off := 0 } 1 (-2)
        = some h1 ∧
      SysBufferGetFloat examplePlatform h1 { block := 0, off := 0 } 1 = some (toU32 (-2)) :=
  ⟨by decide,
    (SysBufferGetFloat_GetDouble_overlap examplePlatform exampleBufferHeap
      { block := 0, off := 0 } 0 0 (by decide)).2.2.2.2.1,
    (SysBufferGetFloat_GetDouble_overlap examplePlatform exampleBufferHeap
      { block := 0, off := 0 } 1 (-2) (by decide)).2.2.2.2.2⟩

/-! ## Byte pointers -/

/-- C16: `SysBufferGetBytePointer` is byte-offset addition on the buffer
address: for every buffer and byte offsets `i`, `j`, the pointer at offset 0 is
the buffer itself, the pointer at offset `j` of the pointer at offset `i` is the
pointer at offset `i + j`, and `SysBufferGetByte` at index `j` of the pointer at
offset `i` is `SysBufferGetByte` of the buffer at index `i + j` (a byte when
`i + j` is in range). -/
theorem SysBufferGetBytePointer_offset_add (h : Heap) (buffer : Ptr) (i j : Int) :
    SysBufferGetBytePointer buffer 0 = buffer ∧
    SysBufferGetBytePointer (SysBufferGetBytePointer buffer i) j =
      SysBufferGetBytePointer buffer (i + j) ∧
    SysBufferGetByte h (SysBufferGetBytePointer buffer i) j =
      SysBufferGetByte h buffer (i + j) ∧
    (ByteInRange h buffer (i + j) →
      ∃ x, SysBufferGetByte h (SysBufferGetBytePointer buffer i) j = some x) := by
  have e3 : SysBufferGetByte h (SysBufferGetBytePointer buffer i) j =
      SysBufferGetByte h buffer (i + j) := by
    unfold SysBufferGetByte SysBufferGetBytePointer
    simp only [add_assoc]
  refine ⟨?_, ?_, e3, ?_⟩
  · cases buffer
    simp [SysBufferGetBytePointer]
  · simp [SysBufferGetBytePointer, add_assoc]
  · intro hr
    rw [e3]
    obtain ⟨x, hx⟩ := (inRange_one_iff h buffer.block (buffer.off + (i + j))).mp hr
    exact ⟨(x.val : Int), by simp only [SysBufferGetByte, hx]⟩

/-! ## Copy towards lower addresses -/

theorem heap_ext (h1 h2 : Heap) (hsz : ∀ b, blockSize h1 b = blockSize h2 b)
    (hpk : ∀ b (a : Int), peek h1 b a = peek h2 b a) : h1 = h2 := by
  apply List.ext_getElem?
  intro b
  have hb := hsz b
  have hp := hpk b
  unfold blockSize at hb
  unfold peek at hp
  cases e1 : h1[b]? with
  | none =>
    cases e2 : h2[b]? with
    | none => rfl
    | some blk2 => simp [e1, e2] at hb
  | some blk1 =>
    cases e2 : h2[b]? with
    | none => simp [e1, e2] at hb
    | some blk2 =>
      congr 1
      apply List.ext_getElem?
      intro k
      have := hp (k : Int)
      simpa [e1, e2] using this

theorem forLoop_preserves {α : Type} (R : Heap → α) (body : Int → Heap → Option Heap)
    (hbody : ∀ i h h1, body i h = some h1 → R h1 = R h) (n : Nat) :
    ∀ (i0 : Int) (h : Heap) (i1 : Int) (h1 : Heap),
      forLoop body n i0 h = some (i1, h1) → R h1 = R h := by
  induction n with
  | zero =>
    intro i0 h i1 h1 hl
    simp only [forLoop, Option.some.injEq, Prod.mk.injEq] at hl
    rw [← hl.2]
  | succ n ih =>
    intro i0 h i1 h1 hl
    simp only [forLoop] at hl
    cases hb : body i0 h with
    | none => simp [hb] at hl
    | some h2 =>
      simp only [hb] at hl
      rw [ih (i0 + 1) h2 i1 h1 hl, hbody i0 h h2 hb]

theorem blockSize_copyBody (src : Ptr) (si : Int) (dst : Ptr) (di : Int) (b : Nat)
    (i : Int) (h h1 : Heap) (hb : copyBody src si dst di i h = some h1) :
    blockSize h1 b = blockSize h b := by
  unfold copyBody at hb
  cases hp : peek h src.block (src.off + (si + i)) with
  | none => simp [hp] at hb
  | some x =>
    simp only [hp] at hb
    exact blockSize_poke hb b

/-- C17: when source and destination are the same buffer and
`destIndex ≤ sourceIndex` (all offsets in range, `n ≥ 0`), the forward loop of
`SysBufferCopyBytes` succeeds and leaves the memory a `memmove` of the original
bytes leaves: the byte at `destIndex + i` afterwards is the original byte at
`sourceIndex + i` for every `0 ≤ i < n`.  For `n ≤ 0` the call changes no byte
of any buffer, whatever the buffers and indexes are. -/
theorem SysBufferCopyBytes_backward_is_memmove (h : Heap) (p : Ptr)
    (sourceIndex destIndex n : Int)
    (hle : destIndex ≤ sourceIndex) (hn : 0 ≤ n)
    (hsrc : InRange h p.block (p.off + sourceIndex) n.toNat)
    (hdst : InRange h p.block (p.off + destIndex) n.toNat) :
    (∃ h1, SysBufferCopyBytes h p sourceIndex p destIndex n = some h1 ∧
      memmoveBytes h p sourceIndex p destIndex n = some h1 ∧
      ∀ i : Int, 0 ≤ i → i < n →
        SysBufferGetByte h1 p (destIndex + i) = SysBufferGetByte h p (sourceIndex + i)) ∧
    (∀ (src dst : Ptr) (si di m : Int), m ≤ 0 →
      SysBufferCopyBytes h src si dst di m = some h) := by
  constructor
  · obtain ⟨h1, hl, hpeek⟩ := forLoop_copyBody h p sourceIndex p destIndex n.toNat
      (fun j => (j : Int)) hsrc hdst
      (fun j hj => ⟨show (0 : Int) ≤ (j : Int) by omega,
        show (j : Int) < ((n.toNat : Nat) : Int) by omega⟩) (by
        intro j _
        show (j : Int) = _
        have c : ¬ (p.block = p.block ∧
            p.off + destIndex ≤ p.off + sourceIndex + (j : Int) ∧
            p.off + sourceIndex + (j : Int) < p.off + destIndex + (j : Int)) := by
          omega
        rw [if_neg c])
    have hbs : ∀ b, blockSize h1 b = blockSize h b := fun b =>
      forLoop_preserves (fun hh => blockSize hh b) (copyBody p sourceIndex p destIndex)
        (fun i hh hh1 hb => blockSize_copyBody p sourceIndex p destIndex b i hh hh1 hb)
        n.toNat 0 h _ h1 hl
    refine ⟨h1, by simp only [SysBufferCopyBytes, hl], ?_, ?_⟩
    · obtain ⟨bs, hbs1⟩ := loadBytes_some_of_inRange n.toNat h p.block (p.off + sourceIndex) hsrc
      obtain ⟨hlen, hk⟩ := (loadBytes_eq_some_iff _ _ _ _ _).mp hbs1
      obtain ⟨h2, hst⟩ := storeBytes_some_of_inRange bs h p.block (p.off + destIndex)
        (by rw [hlen]; exact hdst)
      have e : h2 = h1 := by
        apply heap_ext
        · intro b
          rw [blockSize_storeBytes bs hst, hbs]
        · intro b a
          rw [peek_storeBytes bs hst, hpeek, hlen]
          by_cases c : b = p.block ∧ p.off + destIndex ≤ a ∧
              a < p.off + destIndex + ((n.toNat : Nat) : Int)
          · rw [if_pos c, if_pos c]
            have hk1 := hk (a - (p.off + destIndex)).toNat (by omega)
            rw [← hk1]
          · rw [if_neg c, if_neg c]
      simp only [memmoveBytes, hbs1, hst, e]
    · intro i hi0 hin
      unfold SysBufferGetByte
      rw [hpeek]
      have c : p.block = p.block ∧ p.off + destIndex ≤ p.off + (destIndex + i) ∧
          p.off + (destIndex + i) < p.off + destIndex + ((n.toNat : Nat) : Int) :=
        ⟨rfl, by omega, by omega⟩
      have e : (((p.off + (destIndex + i) - (p.off + destIndex)).toNat : Nat) : Int) = i := by
        omega
      have e2 : p.off + sourceIndex + i = p.off + (sourceIndex + i) := by omega
      rw [if_pos c]
      simp only [e, e2]
  · intro src dst si di m hm
    have : m.toNat = 0 := by omega
    simp only [SysBufferCopyBytes, this, forLoop]

theorem SysBufferCopyBytes_backward_is_memmove_witness :
    (0 : Int) ≤ 2 ∧ (0 : Int) ≤ 5 ∧
    InRange exampleBufferHeap 0 (0 + 2) (5 : Int).toNat ∧
    InRange exampleBufferHeap 0 (0 + 0) (5 : Int).toNat ∧
    (∃ h1, SysBufferCopyBytes exampleBufferHeap { block := 0, off := 0 } 2
        { block := 0, off := 0 } 0 5 = some h1 ∧
      memmoveBytes exampleBufferHeap { block := 0, off := 0 } 2
        { block := 0, off := 0 } 0 5 = some h1 ∧
      ∀ i : Int, 0 ≤ i → i < 5 →
        SysBufferGetByte h1 { block := 0, off := 0 } (0 + i) =
          SysBufferGetByte exampleBufferHeap { block := 0, off := 0 } (2 + i)) :=
  ⟨by decide, by decide, by decide, by decide,
    (SysBufferCopyBytes_backward_is_memmove exampleBufferHeap { block := 0, off := 0 }
      2 0 5 (by decide) (by decide) (by decide) (by decide)).1⟩

/-! ## Length of the narrow result -/

/-- C18: the string `SysStringWideCharToChar w` returns, read as a
zero-terminated C string, is never longer than `w`: its length up to the first
zero byte is the position of the first unit of `w` that is a multiple of 256
(such a unit is not zero, and its low 8 bits are), or the length of `w` when
there is none.  So it is at most the number of wide units of `w`, and strictly
less whenever some unit of `w` is a non-zero multiple of 256. -/
theorem SysStringWideCharToChar_strlen_le (P : Platform) (h : Heap) (wstr : Ptr)
    (us : List Nat) (f : Nat → Byte) (hs : IsWStr P h wstr us)
    (hfit : us.length + 1 < 2147483648) :
    ∃ str h1 m, SysStringWideCharToChar P h (some wstr) (some f) = some (some str, h1) ∧
      strlen h1 str = some m ∧
      m = us.findIdx (fun u => u % 256 == 0) ∧
      m ≤ us.length ∧
      ((∃ u, u ∈ us ∧ u ≠ 0 ∧ u % 256 = 0) → m < us.length) := by
  obtain ⟨h1, hr, -, -, hsz, hun, hz⟩ := wideToChar_core P h wstr us f hs hfit
  have hm : us.findIdx (fun u => u % 256 == 0) ≤ us.length := List.findIdx_le_length _
  refine ⟨{ block := h.length, off := 0 }, h1, us.findIdx (fun u => u % 256 == 0), hr, ?_,
    rfl, hm, ?_⟩
  · unfold strlen
    simp only [hsz, Option.getD_some]
    have := scanZero_found
      (fun i => readByte h1 { block := h.length, off := 0 } i)
      (us.findIdx (fun u => u % 256 == 0)) (us.length + 1 + 1) 0 (by
        intro i hi
        have hin : i < us.length := by omega
        have hb := hun i hin
        rw [List.getElem?_eq_getElem hin] at hb
        refine ⟨us[i] % 256, ?_, ?_⟩
        · simp only [readByte, Nat.zero_add, zero_add, hb, Option.map_some']
          rfl
        · have := List.not_of_lt_findIdx hi
          simpa using this) (by
        simp only [readByte, Nat.zero_add, zero_add]
        by_cases hlt : us.findIdx (fun u => u % 256 == 0) < us.length
        · have hb := hun _ hlt
          rw [List.getElem?_eq_getElem hlt] at hb
          rw [hb]
          have h0 := List.findIdx_getElem (w := hlt)
          simp only [beq_iff_eq] at h0
          simp only [Option.map_some', toByte, h0]
        · have : us.findIdx (fun u => u % 256 == 0) = us.length := by omega
          rw [this, hz]
          rfl) (by omega)
    simpa using this
  · rintro ⟨u, hu, -, hu0⟩
    exact List.findIdx_lt_length_of_exists ⟨u, hu, by simpa using hu0⟩

theorem SysStringWideCharToChar_strlen_le_witness :
    IsWStr examplePlatform exampleStringHeap { block := 1, off := 0 } exampleWide ∧
    exampleWide.length + 1 < 2147483648 ∧
    ∃ str h1 m, SysStringWideCharToChar examplePlatform exampleStringHeap
        (some { block := 1, off := 0 }) (some exampleFresh) = some (some str, h1) ∧
      strlen h1 str = some m ∧
      m = exampleWide.findIdx (fun u => u % 256 == 0) ∧
      m ≤ exampleWide.length ∧
      ((∃ u, u ∈ exampleWide ∧ u ≠ 0 ∧ u % 256 = 0) → m < exampleWide.length) :=
  ⟨by decide, by simp [exampleWide],
    SysStringWideCharToChar_strlen_le examplePlatform exampleStringHeap
      { block := 1, off := 0 } exampleWide exampleFresh (by decide) (by simp [exampleWide])⟩

end MobileLua
